import Mathlib

/-!
The PIMPL logger of `_6_PIMPL/pimpl_classes.cpp`.

A shallow embedding of `pimplTests::Logger` (the singleton), of its hidden
`Logger::Impl` (an `std::ofstream` on `"log.txt"` plus an `std::mutex`) and of
the worker threads of `main.cpp`.

Modelling conventions.

* The C++ stream library is modelled at the level the source uses it: a stream
  has an error state (`badbit`, `failbit`), an output stream inserts text only
  while its state is good, a failed insertion sets `badbit`, and an insertion
  attempted on a stream that is not good sets `failbit`.  A file stream also
  carries its exception mask (`basic_ios::exceptions`), which decides whether
  setting an error bit raises `std::ios_base::failure`.
* The user-space buffer of the file stream is not a field of the stream: every
  insertion of `Logger::Impl::Log` is followed by `std::endl`, which flushes,
  so while the device accepts writes the file holds at the end of each `Log`
  what the stream accepted.  The real stream puts `message` in its buffer and
  writes at the flush of `std::endl`; when the device refuses, it is that flush
  which fails, the refused line stays in the buffer, and `close()` tries to
  write it again.  The model refuses at the insertion instead: the outcome of
  `Log` and the fact that the stream ends up not good are the same, and these
  are all that the general theorems read after a refused write.  The output
  still in the buffer when the stream is closed is an argument of
  `OfStream.close`.
* `log.txt` is a value `File`: its text (or absence), whether it can be opened
  and whether the device accepts writes.  A device either accepts every write
  or refuses every write, whole; a device that takes part of a line is not
  covered.
* The function-local `static Logger instance` of `GetInstance` is the field
  `Process.staticInstance`, empty until the first call.
-/

namespace pimplTests

/-! ## Stream state -/

/-- The error bits of `std::ios_base::iostate` that output streams use. -/
structure IoState where
  badbit : Bool
  failbit : Bool
deriving DecidableEq, Repr

/-- The value `std::ios_base::goodbit`: no error bit. -/
def goodbit : IoState := ⟨false, false⟩

/-- The value `std::ios_base::badbit`. -/
def badbit : IoState := ⟨true, false⟩

/-- The value `std::ios_base::failbit`. -/
def failbit : IoState := ⟨false, true⟩

/-- Bitwise or of two states. -/
def IoState.or (a b : IoState) : IoState := ⟨a.badbit || b.badbit, a.failbit || b.failbit⟩

/-- The test `basic_ios::good()`: no error bit is set. -/
def IoState.good (a : IoState) : Bool := !a.badbit && !a.failbit

/-- Whether two states share a bit (`(a & b) != 0`). -/
def IoState.meets (a b : IoState) : Bool := (a.badbit && b.badbit) || (a.failbit && b.failbit)

/-- How a call ends: it returns to its caller or leaves by an exception. -/
inductive Outcome where
  | returned
  | threw
deriving DecidableEq, Repr

/-! ## The file `log.txt` and the console -/

/-- The file behind the path `"log.txt"`. -/
structure File where
  /-- The text of the file, `none` while the file does not exist. -/
  content : Option String
  /-- Whether opening the path for appending succeeds. -/
  openable : Bool
  /-- Whether the device accepts writes to the opened file: all of them, or
  none at all. -/
  writable : Bool
deriving DecidableEq, Repr

/-- The text of the file; an absent file has no text. -/
def File.text (f : File) : String := f.content.getD ""

/-- A successful write through a descriptor opened with `std::ios::app`: the
bytes go to the end of the file. -/
def File.append (f : File) (bytes : String) : File :=
  { f with content := some (f.text ++ bytes) }

/-- The stream `std::cout` with the terminal behind it. -/
structure Console where
  /-- Everything the terminal has received. -/
  output : String
  /-- The error state of `std::cout`. -/
  rdstate : IoState
  /-- Whether the terminal accepts a write. -/
  available : Bool
deriving DecidableEq, Repr

/-- One insertion `std::cout << bytes`.  `std::cout` keeps the exception mask
`goodbit` it starts with (nothing in the repository calls `exceptions`), so an
insertion only records its failure in the error state. -/
def Console.insert (c : Console) (bytes : String) : Console :=
  if c.rdstate.good then
    if c.available then { c with output := c.output ++ bytes }
    else { c with rdstate := c.rdstate.or badbit }
  else { c with rdstate := c.rdstate.or failbit }

/-! ## `std::ofstream` -/

/-- The member `std::ofstream m_LogFile`. -/
structure OfStream where
  /-- The result of `is_open()`. -/
  is_open : Bool
  /-- The error state, `rdstate()`. -/
  rdstate : IoState
  /-- The exception mask, `exceptions()`. -/
  exceptions : IoState
deriving DecidableEq, Repr

/-- A default-constructed `std::ofstream`: closed, good, mask `goodbit`. -/
def OfStream.default : OfStream := ⟨false, goodbit, goodbit⟩

/-- The call `basic_ios::setstate(bits)`: the bits are added to the error
state, and `std::ios_base::failure` is raised when the new state meets the
exception mask. -/
def OfStream.setstate (s : OfStream) (bits : IoState) : Outcome × OfStream :=
  let st := s.rdstate.or bits
  (if st.meets s.exceptions then Outcome.threw else Outcome.returned, { s with rdstate := st })

/-- The call `m_LogFile.open("log.txt", std::ios::app)`: when the stream is not
yet open and the path can be opened, the file is created if absent, its text is
kept, and the error state is cleared; otherwise `failbit` is set. -/
def OfStream.open (s : OfStream) (d : File) : Outcome × OfStream × File :=
  if !s.is_open && d.openable then
    (Outcome.returned, { s with is_open := true, rdstate := goodbit },
      { d with content := some d.text })
  else
    let r := s.setstate failbit
    (r.1, r.2, d)

/-- The call `m_LogFile.close()`, with `pending` the output still in the buffer
of the stream.  An open stream flushes that output and releases its file
whether the flush succeeds or not; nothing pending, nothing written.  When the
flush fails, and when the stream is not open, the call fails: it sets
`failbit`, which raises under a mask that holds it. -/
def OfStream.close (s : OfStream) (d : File) (pending : String) : Outcome × OfStream × File :=
  if s.is_open then
    if pending = "" then (Outcome.returned, { s with is_open := false }, d)
    else if d.writable then (Outcome.returned, { s with is_open := false }, d.append pending)
    else
      let r := ({ s with is_open := false } : OfStream).setstate failbit
      (r.1, r.2, d)
  else
    let r := s.setstate failbit
    (r.1, r.2, d)

/-- One insertion `m_LogFile << bytes` (also `<< std::endl`, with the line
terminator as bytes).  A stream that is not good refuses and sets `failbit`; a
good stream appends to the file, or sets `badbit` when the device refuses.  The
refusal is placed at the insertion, where the real stream meets it at the
flush of `std::endl`, and the file is left alone, the device taking nothing. -/
def OfStream.insert (s : OfStream) (d : File) (bytes : String) : Outcome × OfStream × File :=
  if s.rdstate.good then
    if s.is_open && d.writable then (Outcome.returned, s, d.append bytes)
    else
      let r := s.setstate badbit
      (r.1, r.2, d)
  else
    let r := s.setstate failbit
    (r.1, r.2, d)

/-! ## `Logger::Impl` -/

/-- The member `std::mutex m_Mutex`. -/
structure Mutex where
  locked : Bool
deriving DecidableEq, Repr

/-- The receivers of the text of a `Log` call that live outside the logger:
`std::cout` and the file `log.txt`. -/
structure Env where
  cout : Console
  disk : File
deriving DecidableEq, Repr

/-- The private class `Logger::Impl`. -/
structure Impl where
  m_LogFile : OfStream
  m_Mutex : Mutex
deriving DecidableEq, Repr

/-- The constructor `Impl::Impl()`: both members are default-constructed and
the body opens `"log.txt"` for appending.  The stream is fresh, its mask is
`goodbit`, so a failed `open` only sets `failbit`. -/
def Impl.ctor (d : File) : Impl × File :=
  let r := OfStream.default.open d
  ({ m_LogFile := r.2.1, m_Mutex := ⟨false⟩ }, r.2.2)

/-- The body of the destructor `Impl::~Impl()`, lines 51 to 54, with `pending`
the output still in the buffer of `m_LogFile`. -/
def Impl.dtor (self : Impl) (d : File) (pending : String) : Outcome × Impl × File :=
  if self.m_LogFile.is_open then
    let r := self.m_LogFile.close d pending
    (r.1, { self with m_LogFile := r.2.1 }, r.2.2)
  else (Outcome.returned, self, d)

/-- Line 60: `std::cout << "[LOG]: " << message << std::endl;`. -/
def consoleLine (c : Console) (message : String) : Console :=
  ((c.insert "[LOG]: ").insert message).insert "\n"

/-- Line 63: `m_LogFile << message << std::endl;`.  When the first insertion
raises, the second one is not reached. -/
def fileLine (s : OfStream) (d : File) (message : String) : Outcome × OfStream × File :=
  let r := s.insert d message
  match r.1 with
  | Outcome.threw => r
  | Outcome.returned => r.2.1.insert r.2.2 "\n"

/-- The call `m_Mutex.lock()` made by the constructor of `std::lock_guard`:
`none` when the mutex is held, because the call then does not return. -/
def Mutex.lock (m : Mutex) : Option Mutex := if m.locked then none else some ⟨true⟩

/-- The call `m_Mutex.unlock()` made by the destructor of `std::lock_guard`. -/
def Mutex.unlock (_m : Mutex) : Mutex := ⟨false⟩

/-- Lines 60 to 64, the statements of `Log` under the guard. -/
def Impl.logBody (self : Impl) (e : Env) (message : String) : Outcome × Impl × Env :=
  let cout := consoleLine e.cout message
  if self.m_LogFile.is_open then
    let r := fileLine self.m_LogFile e.disk message
    (r.1, { self with m_LogFile := r.2.1 }, { cout := cout, disk := r.2.2 })
  else (Outcome.returned, self, { e with cout := cout })

/-- The method `Logger::Impl::Log(message)` run by one caller with nobody else
in it.  The guard takes the mutex (`none`: the mutex is held and the call never
returns), the statements run, and the guard releases the mutex when the scope
is left, by return or by exception. -/
def Impl.Log (self : Impl) (e : Env) (message : String) : Option (Outcome × Impl × Env) :=
  match self.m_Mutex.lock with
  | none => none
  | some mu =>
    let r := Impl.logBody { self with m_Mutex := mu } e message
    some (r.1, { r.2.1 with m_Mutex := r.2.1.m_Mutex.unlock }, r.2.2)

/-! ## `Logger`, the singleton -/

/-- The class `Logger`.  The field `serial` is a ghost identity: the number of
`Logger` constructions that came before the one that built this object. -/
structure Logger where
  m_pImpl : Impl
  serial : Nat
deriving DecidableEq, Repr

/-- The state of a running process as far as logging goes. -/
structure Process where
  env : Env
  /-- The storage of `static Logger instance` in `GetInstance`. -/
  staticInstance : Option Logger
  /-- Ghost counter: how many times `Logger::Logger()` has run. -/
  constructions : Nat
deriving DecidableEq, Repr

/-- A process that has not called `GetInstance` yet. -/
def Process.start (e : Env) : Process :=
  { env := e, staticInstance := none, constructions := 0 }

/-- The function `Logger::GetInstance()`: the first call runs
`Logger::Logger()`, which makes the `Impl`; every call returns the object in
the static storage.  The result carries the identity of the returned object. -/
def Logger.GetInstance (p : Process) : Logger × Process :=
  match p.staticInstance with
  | some l => (l, p)
  | none =>
    let r := Impl.ctor p.env.disk
    let l : Logger := { m_pImpl := r.1, serial := p.constructions }
    (l, { env := { p.env with disk := r.2 }, staticInstance := some l,
          constructions := p.constructions + 1 })

/-- The method `Logger::Log(message)`: forwards to the `Impl`. -/
def Logger.Log (self : Logger) (e : Env) (message : String) : Option (Outcome × Logger × Env) :=
  match self.m_pImpl.Log e message with
  | none => none
  | some r => some (r.1, { self with m_pImpl := r.2.1 }, r.2.2)

/-- The expression `Logger::GetInstance().Log(message)` of `main.cpp`. -/
def Process.Log (p : Process) (message : String) : Option (Outcome × Process) :=
  let g := Logger.GetInstance p
  match g.1.Log g.2.env message with
  | none => none
  | some r => some (r.1, { g.2 with env := r.2.2, staticInstance := some r.2.1 })

/-- The messages `ms` logged one after the other by a single caller, each by
`Logger::GetInstance().Log(message)`: the outcomes in order and the process
afterwards, `none` as soon as a call does not return.  A call that raises ends
the sequence. -/
def Process.logAll (p : Process) : List String → Option (List Outcome × Process)
  | [] => some ([], p)
  | m :: ms =>
    match p.Log m with
    | none => none
    | some (Outcome.threw, q) => some ([Outcome.threw], q)
    | some (Outcome.returned, q) =>
      match Process.logAll q ms with
      | none => none
      | some r => some (Outcome.returned :: r.1, r.2)

/-- The sequence of `n` calls of `GetInstance`: the identities returned, in call
order, and the process afterwards. -/
def getInstances : Nat → Process → List Nat × Process
  | 0, p => ([], p)
  | n + 1, p =>
    let g := Logger.GetInstance p
    let r := getInstances n g.2
    (g.1.serial :: r.1, r.2)

/-! ## Threads

Several threads run `Logger::GetInstance().Log(message)` one message after the
other, as the workers of `main.cpp` do.  A thread advances one statement at a
time; a schedule says which thread moves next.  The initialisation of the
function-local static is one step (the language makes it atomic for the other
callers), and so is each statement of `Logger::Impl::Log`, the two insertions
of line 63 being separate steps. -/

/-- Where a thread stands inside `Logger::GetInstance().Log(message)`. -/
inductive Pc where
  /-- Before `Logger::GetInstance()` (main.cpp, line 19). -/
  | atGetInstance
  /-- Before the guard of line 59 takes the mutex. -/
  | atLock
  /-- Before line 60, the console line. -/
  | atConsole
  /-- Before the test `m_LogFile.is_open()` of line 61. -/
  | atIsOpen
  /-- Before `m_LogFile << message` of line 63. -/
  | atInsert
  /-- Before `<< std::endl` of line 63. -/
  | atEndl
  /-- Before the guard releases the mutex at line 65; the outcome is the one
  `Log` is about to end with. -/
  | atUnlock (o : Outcome)
  /-- An exception has left the thread function (`std::terminate`). -/
  | terminated
deriving DecidableEq, Repr

/-- A thread: its position and the messages it still has to log, the current
one first. -/
structure Thread where
  pc : Pc
  todo : List String
deriving DecidableEq, Repr

/-- The process with the `Impl` of its logger replaced. -/
def Process.setImpl (p : Process) (l : Logger) (f : Impl) : Process :=
  { p with staticInstance := some { l with m_pImpl := f } }

/-- One statement of a thread, `none` when the thread cannot move: it has
nothing left to log, it waits for the mutex, or it is dead. -/
def stepThread (p : Process) (t : Thread) : Option (Process × Thread) :=
  match t.todo with
  | [] => none
  | m :: rest =>
    match t.pc with
    | Pc.atGetInstance => some ((Logger.GetInstance p).2, { t with pc := Pc.atLock })
    | Pc.terminated => none
    | pc =>
      match p.staticInstance with
      | none => none
      | some l =>
        let f := l.m_pImpl
        match pc with
        | Pc.atLock =>
          match f.m_Mutex.lock with
          | none => none
          | some mu => some (p.setImpl l { f with m_Mutex := mu }, { t with pc := Pc.atConsole })
        | Pc.atConsole =>
          some ({ p with env := { p.env with cout := consoleLine p.env.cout m } },
                { t with pc := Pc.atIsOpen })
        | Pc.atIsOpen =>
          some (p, { t with pc := if f.m_LogFile.is_open then Pc.atInsert
                                  else Pc.atUnlock Outcome.returned })
        | Pc.atInsert =>
          let r := f.m_LogFile.insert p.env.disk m
          some ({ p.setImpl l { f with m_LogFile := r.2.1 } with env := { p.env with disk := r.2.2 } },
                { t with pc := match r.1 with
                               | Outcome.returned => Pc.atEndl
                               | Outcome.threw => Pc.atUnlock Outcome.threw })
        | Pc.atEndl =>
          let r := f.m_LogFile.insert p.env.disk "\n"
          some ({ p.setImpl l { f with m_LogFile := r.2.1 } with env := { p.env with disk := r.2.2 } },
                { t with pc := Pc.atUnlock r.1 })
        | Pc.atUnlock o =>
          some (p.setImpl l { f with m_Mutex := f.m_Mutex.unlock },
                match o with
                | Outcome.returned => { pc := Pc.atGetInstance, todo := rest }
                | Outcome.threw => { t with pc := Pc.terminated })
        | _ => none

/-- The process together with its threads. -/
structure Sys where
  proc : Process
  threads : List Thread
  /-- Set once an exception has left a thread function. -/
  aborted : Bool
deriving DecidableEq, Repr

/-- Thread `i` is scheduled: it performs one statement if it can, and nothing
changes if it cannot or if the process was aborted. -/
def Sys.step (s : Sys) (i : Nat) : Sys :=
  if s.aborted then s
  else
    match s.threads[i]? with
    | none => s
    | some t =>
      match stepThread s.proc t with
      | none => s
      | some r => { proc := r.1, threads := s.threads.set i r.2,
                    aborted := decide (r.2.pc = Pc.terminated) }

/-- The system after a schedule, the list of the threads scheduled in turn. -/
def Sys.run (s : Sys) (sched : List Nat) : Sys := sched.foldl Sys.step s

/-- The start of the threads: thread `i` is to log the messages `progs[i]`. -/
def Sys.spawn (p : Process) (progs : List (List String)) : Sys :=
  { proc := p, threads := progs.map (fun ms => { pc := Pc.atGetInstance, todo := ms }),
    aborted := false }

/-- Every thread has logged all its messages. -/
def Sys.finished (s : Sys) : Prop := ∀ t ∈ s.threads, t.todo = []

instance (s : Sys) : Decidable s.finished := by unfold Sys.finished; infer_instance

/-- The text of the lines `ms`: each message followed by the line terminator. -/
def linesOf : List String → String
  | [] => ""
  | m :: ms => m ++ "\n" ++ linesOf ms

/-- Auxiliary scan of `fileLines`: `cur` holds the current line, reversed. -/
def fileLinesAux : List Char → List Char → List String
  | [], _ => []
  | c :: cs, cur =>
    if c = '\n' then String.mk cur.reverse :: fileLinesAux cs []
    else fileLinesAux cs (c :: cur)

/-- The terminated lines of a text, without their terminators. -/
def fileLines (s : String) : List String := fileLinesAux s.data []

/-- The logger that `GetInstance` builds when `log.txt` cannot be opened: the
stream is closed, `failbit` is set, the mutex is free. -/
def closedLogger (serial : Nat) : Logger :=
  { m_pImpl := { m_LogFile := ⟨false, failbit, goodbit⟩, m_Mutex := ⟨false⟩ }, serial := serial }

/-- Whether the thread is inside the scope of the guard of `Log`. -/
def Thread.inCS (t : Thread) : Bool :=
  match t.pc with
  | Pc.atConsole => true
  | Pc.atIsOpen => true
  | Pc.atInsert => true
  | Pc.atEndl => true
  | Pc.atUnlock _ => true
  | _ => false

/-- The messages of the thread whose line is not yet complete in the file. -/
def Thread.rem (t : Thread) : List String :=
  match t.pc with
  | Pc.atUnlock _ => t.todo.tail
  | _ => t.todo

/-- The text the thread has put in the file for a line it has not terminated
yet. -/
def Thread.pend (t : Thread) : String :=
  match t.pc with
  | Pc.atEndl => t.todo.headD ""
  | _ => ""

/-- The unterminated text of all the threads together. -/
def pendingOf : List Thread → String
  | [] => ""
  | t :: ts => t.pend ++ pendingOf ts

/-- Whether the mutex of the logger is held; no logger, no held mutex. -/
def Process.locked (p : Process) : Bool :=
  match p.staticInstance with
  | some l => l.m_pImpl.m_Mutex.locked
  | none => false

/-- A process in which logging to the file can work: the device accepts
writes, and the logger is either not built yet over a file that can be opened,
or built with an open stream in good state. -/
def Process.sinkUsable (p : Process) : Prop :=
  p.env.disk.writable = true ∧
  (p.staticInstance = none → p.env.disk.openable = true) ∧
  (∀ l, p.staticInstance = some l →
    l.m_pImpl.m_LogFile.is_open = true ∧ l.m_pImpl.m_LogFile.rdstate = goodbit)

/-- The invariant of the threads.  `c0` is the text of the file when the threads
start and `progs` their messages.  The list `L` of the last field is the
sequence of complete lines written so far, each with the index of its
thread. -/
structure Inv (c0 : String) (progs : List (List String)) (s : Sys) : Prop where
  notAborted : s.aborted = false
  usable : s.proc.sinkUsable
  local_ : ∀ (j : Nat) (tj : Thread), s.threads[j]? = some tj →
    tj.pc ≠ Pc.terminated ∧ tj.pc ≠ Pc.atUnlock Outcome.threw ∧
    (tj.todo = [] → tj.pc = Pc.atGetInstance) ∧ (tj.inCS = true → s.proc.locked = true)
  excl : ∀ (i j : Nat) (ti tj : Thread), s.threads[i]? = some ti → s.threads[j]? = some tj →
    ti.inCS = true → tj.inCS = true → i = j
  size : s.threads.length = progs.length
  content : ∃ L : List (Nat × String),
    s.proc.env.disk.text = c0 ++ linesOf (L.map Prod.snd) ++ pendingOf s.threads ∧
    (L.map Prod.snd ++ (s.threads.map Thread.rem).flatten).Perm progs.flatten ∧
    ∀ (j : Nat) (tj : Thread), s.threads[j]? = some tj →
      progs[j]? = some ((L.filter (fun x => decide (x.1 = j))).map Prod.snd ++ tj.rem)

/-- The messages of worker `i` of `main.cpp` (lines 17 to 22), for a loop of
`n` rounds: `std::format("Thread {} - Message {}", i, j)` for `j` below `n`. -/
def workerMessages (i n : Nat) : List String :=
  (List.range n).map (fun j => "Thread " ++ toString i ++ " - Message " ++ toString j)

/-- The messages of `k` workers of `n` rounds each (main.cpp, lines 12 to 25,
has `k = 5` and `n = 5`). -/
def workerProgs (k n : Nat) : List (List String) :=
  (List.range k).map (fun i => workerMessages i n)

/-- The schedule that lets threads `0` to `k - 1` move in turn, `rounds`
times. -/
def roundRobin (k rounds : Nat) : List Nat := (List.replicate rounds (List.range k)).flatten

/-- The construction bookkeeping of a process that started without a logger:
the constructor has run once if the logger exists and not at all if it does
not, and the logger is the one of the first construction. -/
def Process.builtOnce (p : Process) : Prop :=
  p.constructions = (if p.staticInstance.isSome then 1 else 0) ∧
  ∀ l, p.staticInstance = some l → l.serial = 0

/-- The class `Person` of `pimpl_classes.cpp`, with the two members of its
`Impl`. -/
structure Person where
  m_Name : String
  m_Age : Int
deriving DecidableEq, Repr

/-- The method `Person::Introduce()` (line 20), five insertions in
`std::cout`. -/
def Person.Introduce (self : Person) (c : Console) : Console :=
  ((((c.insert "Hello, I'm ").insert self.m_Name).insert " and I'm ").insert
    (toString self.m_Age)).insert " years old.\n"

/-- The workers of `main` (main.cpp, lines 8 to 25) after the schedule `sched`:
`main` has introduced the person and started five threads of five messages
each in a process that has not built the logger yet. -/
def mainWorkers (e : Env) (sched : List Nat) : Sys :=
  (Sys.spawn (Process.start { e with cout := (Person.mk "Dustin" 40).Introduce e.cout })
    (workerProgs 5 5)).run sched

/-- The function `main` of main.cpp under a schedule of its workers.  The joins
of lines 27 and 28 return once every worker has logged all its messages; line
30 then logs the closing message.  The result is what that `Log` gives, and
`none` when the schedule ends before the workers do, `main` then being still in
a join. -/
def main (e : Env) (sched : List Nat) : Option (Outcome × Process) :=
  if (mainWorkers e sched).finished then
    (mainWorkers e sched).proc.Log "All threads are finished!"
  else none

/-- The schedule in which threads `0` to `k - 1` take turns for `rounds` rounds
and then run `len` steps each, one thread after the other. -/
def turnsThenRuns (k rounds len : Nat) : List Nat :=
  roundRobin k rounds ++ ((List.range k).map (fun i => List.replicate len i)).flatten

/-- A process whose logger is already built, with the file stream `f` and a
free mutex. -/
def Process.built (e : Env) (f : OfStream) : Process :=
  { env := e, staticInstance := some { m_pImpl := { m_LogFile := f, m_Mutex := ⟨false⟩ }, serial := 0 },
    constructions := 1 }

end pimplTests

/-! # Theorems -/

namespace pimplTests

/-! ## Helper lemmas on the stream operations -/

theorem IoState.good_iff (a : IoState) : a.good = true ↔ a = goodbit := by
  cases a with
  | mk b f => cases b <;> cases f <;> simp [IoState.good, goodbit]

theorem insert_ok (s : OfStream) (d : File) (bytes : String)
    (hopen : s.is_open = true) (hgood : s.rdstate.good = true) (hwr : d.writable = true) :
    s.insert d bytes = (Outcome.returned, s, d.append bytes) := by
  simp [OfStream.insert, hopen, hgood, hwr]

theorem fileLine_ok (s : OfStream) (d : File) (message : String)
    (hopen : s.is_open = true) (hgood : s.rdstate.good = true) (hwr : d.writable = true) :
    fileLine s d message = (Outcome.returned, s, (d.append message).append "\n") := by
  have hwr2 : (d.append message).writable = true := by simpa [File.append] using hwr
  simp [fileLine, insert_ok s d message hopen hgood hwr,
    insert_ok s (d.append message) "\n" hopen hgood hwr2]

theorem File.text_append (d : File) (bytes : String) :
    (d.append bytes).text = d.text ++ bytes := by
  simp [File.append, File.text]

/-! ## C1 -/

/-- C1. For every message and every logger state whose mutex is free and whose
file stream is open and good, with a file that accepts writes, `Log` returns
normally and leaves the file equal to its previous text followed by exactly the
message and one line terminator; the stream stays as it was. -/
theorem Log_appends_exactly_the_message_line (self : Impl) (e : Env) (message : String)
    (hfree : self.m_Mutex.locked = false)
    (hopen : self.m_LogFile.is_open = true)
    (hgood : self.m_LogFile.rdstate.good = true)
    (hwr : e.disk.writable = true) :
    ∃ e2 : Env, self.Log e message = some (Outcome.returned, self, e2) ∧
      e2.disk.content = some (e.disk.text ++ message ++ "\n") ∧
      e2.disk.openable = e.disk.openable ∧ e2.disk.writable = e.disk.writable := by
  refine ⟨{ cout := consoleLine e.cout message,
            disk := (e.disk.append message).append "\n" }, ?_, ?_, rfl, rfl⟩
  · cases self with
    | mk f mu =>
      cases mu with
      | mk l =>
        simp only at hfree hopen hgood
        subst hfree
        simp [Impl.Log, Mutex.lock, Impl.logBody, hopen, fileLine_ok f e.disk message hopen hgood hwr,
          Mutex.unlock]
  · simp [File.append, File.text]

/-- C1, at a concrete state: the file holds `old`, the message is `hello`. -/
theorem Log_appends_exactly_the_message_line_witness :
    ∃ e2 : Env,
      Impl.Log ⟨⟨true, goodbit, goodbit⟩, ⟨false⟩⟩ ⟨⟨"", goodbit, true⟩, ⟨some "old\n", true, true⟩⟩ "hello"
        = some (Outcome.returned, ⟨⟨true, goodbit, goodbit⟩, ⟨false⟩⟩, e2) ∧
      e2.disk.content = some ("old\n" ++ "hello" ++ "\n") ∧
      e2.disk.openable = true ∧ e2.disk.writable = true :=
  Log_appends_exactly_the_message_line ⟨⟨true, goodbit, goodbit⟩, ⟨false⟩⟩
    ⟨⟨"", goodbit, true⟩, ⟨some "old\n", true, true⟩⟩ "hello" rfl rfl rfl rfl

/-! ## `GetInstance` on an existing logger -/

theorem GetInstance_of_some (p : Process) (l : Logger) (h : p.staticInstance = some l) :
    Logger.GetInstance p = (l, p) := by
  simp [Logger.GetInstance, h]

theorem getInstances_of_some (n : Nat) (p : Process) (l : Logger)
    (h : p.staticInstance = some l) :
    getInstances n p = (List.replicate n l.serial, p) := by
  induction n with
  | zero => rfl
  | succ k ih => simp [getInstances, GetInstance_of_some p l h, ih, List.replicate_succ]

/-! ## C4 -/

theorem Log_closedLogger (p : Process) (n : Nat) (m : String)
    (h : p.staticInstance = some (closedLogger n)) :
    p.Log m = some (Outcome.returned,
      { p with env := { p.env with cout := consoleLine p.env.cout m } }) := by
  simp [Process.Log, GetInstance_of_some p _ h, Logger.Log, Impl.Log, Mutex.lock, closedLogger,
    Impl.logBody, Mutex.unlock]
  rw [h]
  simp [closedLogger]

theorem logAll_closedLogger (ms : List String) (p : Process) (n : Nat)
    (h : p.staticInstance = some (closedLogger n)) :
    ∃ q : Process, p.logAll ms = some (List.replicate ms.length Outcome.returned, q) ∧
      q.env.disk = p.env.disk ∧ q.staticInstance = some (closedLogger n) ∧
      q.constructions = p.constructions := by
  induction ms generalizing p with
  | nil => exact ⟨p, rfl, rfl, h, rfl⟩
  | cons m ms ih =>
    obtain ⟨q, hq, hd, hi, hc⟩ :=
      ih { p with env := { p.env with cout := consoleLine p.env.cout m } } h
    refine ⟨q, ?_, hd, hi, hc⟩
    simp [Process.logAll, Log_closedLogger p n m h, hq, List.replicate_succ]

theorem GetInstance_unopenable (e : Env) (h : e.disk.openable = false) :
    Logger.GetInstance (Process.start e)
      = (closedLogger 0, { env := e, staticInstance := some (closedLogger 0), constructions := 1 }) := by
  simp [Logger.GetInstance, Process.start, Impl.ctor, OfStream.open, OfStream.default, h,
    OfStream.setstate, IoState.or, IoState.meets, goodbit, failbit, closedLogger]

/-- C4, refuted as stated: `log.txt` cannot be opened, yet the first `Log`,
which triggers the construction, and a second `Log` both return normally, and
neither message reaches the file, which stays absent. -/
theorem unopenable_file_counterexample :
    ((Process.start ⟨⟨"", goodbit, true⟩, ⟨none, false, true⟩⟩).logAll ["first", "second"]).map
        (fun r => (r.1, r.2.env.disk.content, r.2.env.cout.output))
      = some ([Outcome.returned, Outcome.returned], none, "[LOG]: first\n[LOG]: second\n") := by
  decide

/-- C4, amended. When `log.txt` cannot be opened, nothing surfaces the
failure: the construction triggered by the first call leaves the stream closed
with `failbit` set, and for every list of messages logged afterwards every
`Log` call returns normally while the file is left exactly as it was, so the
messages are dropped from the file. -/
theorem unopenable_file_is_silent (e : Env) (ms : List String)
    (h : e.disk.openable = false) :
    (Logger.GetInstance (Process.start e)).1.m_pImpl.m_LogFile.is_open = false ∧
    (Logger.GetInstance (Process.start e)).1.m_pImpl.m_LogFile.rdstate = failbit ∧
    ∃ q : Process,
      (Process.start e).logAll ms = some (List.replicate ms.length Outcome.returned, q) ∧
      q.env.disk = e.disk := by
  refine ⟨by rw [GetInstance_unopenable e h]; rfl, by rw [GetInstance_unopenable e h]; rfl, ?_⟩
  cases ms with
  | nil => exact ⟨_, rfl, rfl⟩
  | cons m ms =>
    have h1 : (Process.start e).Log m = some (Outcome.returned,
        { env := { e with cout := consoleLine e.cout m },
          staticInstance := some (closedLogger 0), constructions := 1 }) := by
      simp [Process.Log, GetInstance_unopenable e h, Logger.Log, Impl.Log, Mutex.lock,
        closedLogger, Impl.logBody, Mutex.unlock]
    obtain ⟨q, hq, hd, -, -⟩ := logAll_closedLogger ms
      { env := { e with cout := consoleLine e.cout m },
        staticInstance := some (closedLogger 0), constructions := 1 } 0 rfl
    refine ⟨q, ?_, hd⟩
    simp [Process.logAll, h1, hq, List.replicate_succ]

/-- C4 amended, at a file that cannot be opened and two messages. -/
theorem unopenable_file_is_silent_witness :
    ∃ q : Process,
      (Process.start ⟨⟨"", goodbit, true⟩, ⟨some "kept\n", false, true⟩⟩).logAll ["a", "b"]
        = some (List.replicate 2 Outcome.returned, q) ∧
      q.env.disk = ⟨some "kept\n", false, true⟩ :=
  (unopenable_file_is_silent ⟨⟨"", goodbit, true⟩, ⟨some "kept\n", false, true⟩⟩ ["a", "b"] rfl).2.2

/-! ## C5 -/

/-- C5, refuted as stated: the stream is open and good, as the constructor left
it, but the device refuses the write; `Log` still returns normally, and the
only trace of the failure is that the stream is no longer good. -/
theorem failed_write_counterexample :
    (Impl.Log ⟨⟨true, goodbit, goodbit⟩, ⟨false⟩⟩
        ⟨⟨"", goodbit, true⟩, ⟨some "old\n", true, false⟩⟩ "lost").map
        (fun r => (r.1, r.2.1.m_LogFile.rdstate.good))
      = some (Outcome.returned, false) := by
  decide

theorem setstate_default_mask (s : OfStream) (bits : IoState) (h : s.exceptions = goodbit) :
    (s.setstate bits).1 = Outcome.returned ∧ (s.setstate bits).2.exceptions = goodbit ∧
    (s.setstate bits).2.is_open = s.is_open ∧ (s.setstate bits).2.rdstate = s.rdstate.or bits := by
  simp [OfStream.setstate, h, IoState.meets, goodbit]

theorem insert_default_mask (s : OfStream) (d : File) (bytes : String)
    (h : s.exceptions = goodbit) :
    (s.insert d bytes).1 = Outcome.returned ∧ (s.insert d bytes).2.1.exceptions = goodbit ∧
    (s.insert d bytes).2.1.is_open = s.is_open := by
  unfold OfStream.insert
  split
  · split
    · exact ⟨rfl, h, rfl⟩
    · exact ⟨(setstate_default_mask s badbit h).1, (setstate_default_mask s badbit h).2.1,
        (setstate_default_mask s badbit h).2.2.1⟩
  · exact ⟨(setstate_default_mask s failbit h).1, (setstate_default_mask s failbit h).2.1,
      (setstate_default_mask s failbit h).2.2.1⟩

theorem fileLine_default_mask (s : OfStream) (d : File) (message : String)
    (h : s.exceptions = goodbit) :
    (fileLine s d message).1 = Outcome.returned ∧
    (fileLine s d message).2.1.exceptions = goodbit ∧
    (fileLine s d message).2.1.is_open = s.is_open := by
  have h1 := insert_default_mask s d message h
  have h2 := insert_default_mask (s.insert d message).2.1 (s.insert d message).2.2 "\n" h1.2.1
  simp only [fileLine, h1.1]
  exact ⟨h2.1, h2.2.1, h2.2.2.trans h1.2.2⟩

theorem insert_unwritable (s : OfStream) (d : File) (bytes : String)
    (hwr : d.writable = false) :
    (s.insert d bytes).2.2 = d ∧ (s.insert d bytes).2.1.rdstate.good = false := by
  cases s with
  | mk o st ex =>
    cases st with
    | mk b f =>
      cases b <;> cases f <;>
        simp [OfStream.insert, hwr, IoState.good, OfStream.setstate, IoState.or, badbit, failbit]

theorem fileLine_unwritable (s : OfStream) (d : File) (message : String)
    (hwr : d.writable = false) :
    (fileLine s d message).2.2 = d ∧ (fileLine s d message).2.1.rdstate.good = false := by
  have h1 := insert_unwritable s d message hwr
  unfold fileLine
  cases ho : (s.insert d message).1 with
  | threw => simpa [ho] using h1
  | returned =>
    have hwr2 : (s.insert d message).2.2.writable = false := by rw [h1.1]; exact hwr
    have h2 := insert_unwritable (s.insert d message).2.1 (s.insert d message).2.2 "\n" hwr2
    simp only [ho]
    exact ⟨h2.1.trans h1.1, h2.2⟩

/-- C5, amended. `Log` on a logger whose stream has the exception mask the
constructor gave it (`goodbit`) and whose mutex is free returns normally in
every case, so a file that cannot be written does not make `Log` fail: when the
stream is open and the device refuses the write, the failure is not surfaced
to the call, it is only recorded in the error state of the stream, which ends
up not good.  The mask is still `goodbit` afterwards. -/
theorem Log_returns_normally (self : Impl) (e : Env) (message : String)
    (hfree : self.m_Mutex.locked = false)
    (hmask : self.m_LogFile.exceptions = goodbit) :
    ∃ (self2 : Impl) (e2 : Env),
      self.Log e message = some (Outcome.returned, self2, e2) ∧
      self2.m_LogFile.exceptions = goodbit ∧
      (self.m_LogFile.is_open = true → e.disk.writable = false →
        self2.m_LogFile.rdstate.good = false) := by
  cases self with
  | mk f mu =>
    cases mu with
    | mk l =>
      simp only at hfree hmask
      subst hfree
      by_cases hopen : f.is_open = true
      · have h := fileLine_default_mask f e.disk message hmask
        refine ⟨⟨(fileLine f e.disk message).2.1, ⟨false⟩⟩,
          ⟨consoleLine e.cout message, (fileLine f e.disk message).2.2⟩, ?_, h.2.1, ?_⟩
        · simp [Impl.Log, Mutex.lock, Impl.logBody, hopen, Mutex.unlock, h.1]
        · intro _ hwr
          exact (fileLine_unwritable f e.disk message hwr).2
      · refine ⟨⟨f, ⟨false⟩⟩, ⟨consoleLine e.cout message, e.disk⟩, ?_, hmask, ?_⟩
        · simp [Impl.Log, Mutex.lock, Impl.logBody, hopen, Mutex.unlock]
        · intro h; exact absurd h hopen

/-- C5 amended, at an open stream over a device that refuses writes. -/
theorem Log_returns_normally_witness :
    ∃ (self2 : Impl) (e2 : Env),
      Impl.Log ⟨⟨true, goodbit, goodbit⟩, ⟨false⟩⟩
          ⟨⟨"", goodbit, true⟩, ⟨some "old\n", true, false⟩⟩ "lost"
        = some (Outcome.returned, self2, e2) ∧
      self2.m_LogFile.exceptions = goodbit ∧
      self2.m_LogFile.rdstate.good = false :=
  match Log_returns_normally ⟨⟨true, goodbit, goodbit⟩, ⟨false⟩⟩
      ⟨⟨"", goodbit, true⟩, ⟨some "old\n", true, false⟩⟩ "lost" rfl rfl with
  | ⟨self2, e2, h1, h2, h3⟩ => ⟨self2, e2, h1, h2, h3 rfl rfl⟩

/-! ## C6 -/

theorem ctor_openable (d : File) (h : d.openable = true) :
    Impl.ctor d = (⟨⟨true, goodbit, goodbit⟩, ⟨false⟩⟩, { d with content := some d.text }) := by
  simp [Impl.ctor, OfStream.open, OfStream.default, h]

theorem Log_openLogger (e : Env) (message : String) (hwr : e.disk.writable = true) :
    Impl.Log ⟨⟨true, goodbit, goodbit⟩, ⟨false⟩⟩ e message
      = some (Outcome.returned, ⟨⟨true, goodbit, goodbit⟩, ⟨false⟩⟩,
          ⟨consoleLine e.cout message, (e.disk.append message).append "\n"⟩) := by
  simp [Impl.Log, Mutex.lock, Impl.logBody, Mutex.unlock,
    fileLine_ok ⟨true, goodbit, goodbit⟩ e.disk message rfl rfl hwr]

theorem dtor_closed (self : Impl) (d : File) (pending : String)
    (h : self.m_LogFile.is_open = false) :
    self.dtor d pending = (Outcome.returned, self, d) := by
  simp [Impl.dtor, h]

theorem dtor_closes (self : Impl) (d : File) (pending : String) :
    (self.dtor d pending).2.1.m_LogFile.is_open = false := by
  cases h : self.m_LogFile.is_open with
  | false => simp [Impl.dtor, h]
  | true =>
    simp only [Impl.dtor, h, if_true, OfStream.close]
    split
    · rfl
    · split <;> rfl

/-- C7. The body of `Impl::~Impl()` is idempotent.  For every state of the
`Impl`, every file and whatever output is still in the buffer of the stream,
the first run leaves the stream closed, and a second run, whatever it is handed
as buffer, returns normally and changes neither the `Impl` nor the file: two
runs give the state and the file of one run.  On a stream that is already
closed the body changes nothing and returns normally.  (The first run on an
open stream writes the pending output, once, when the device accepts it.) -/
theorem dtor_idempotent (self : Impl) (d : File) (pending pending2 : String) :
    (self.dtor d pending).2.1.dtor (self.dtor d pending).2.2 pending2
      = (Outcome.returned, (self.dtor d pending).2.1, (self.dtor d pending).2.2) ∧
    (self.dtor d pending).2.1.m_LogFile.is_open = false ∧
    (self.m_LogFile.is_open = false → self.dtor d pending = (Outcome.returned, self, d)) ∧
    (self.m_LogFile.is_open = true → d.writable = true →
      (self.dtor d pending).1 = Outcome.returned ∧
      (self.dtor d pending).2.2.text = d.text ++ pending) := by
  refine ⟨dtor_closed _ _ _ (dtor_closes self d pending), dtor_closes self d pending,
    dtor_closed self d pending, ?_⟩
  intro hopen hwr
  by_cases hp : pending = ""
  · simp [Impl.dtor, OfStream.close, hopen, hp]
  · simp [Impl.dtor, OfStream.close, hopen, hp, hwr, File.text_append]

/-- C7, at an open stream that still holds a line: over a device that accepts
writes the first run writes the line and closes, and the second run changes
nothing; over a device that refuses, under a mask that holds `failbit`, the
first run raises and closes, and the second run again changes nothing. -/
theorem dtor_idempotent_witness :
    Impl.dtor ⟨⟨true, badbit, goodbit⟩, ⟨false⟩⟩ ⟨some "old\n", true, true⟩ "late\n"
      = (Outcome.returned, ⟨⟨false, badbit, goodbit⟩, ⟨false⟩⟩, ⟨some "old\nlate\n", true, true⟩) ∧
    Impl.dtor ⟨⟨false, badbit, goodbit⟩, ⟨false⟩⟩ ⟨some "old\nlate\n", true, true⟩ "late\n"
      = (Outcome.returned, ⟨⟨false, badbit, goodbit⟩, ⟨false⟩⟩, ⟨some "old\nlate\n", true, true⟩) ∧
    (Impl.dtor ⟨⟨true, badbit, failbit⟩, ⟨false⟩⟩ ⟨some "old\n", true, false⟩ "late\n").1
      = Outcome.threw ∧
    (Impl.dtor ⟨⟨true, badbit, failbit⟩, ⟨false⟩⟩ ⟨some "old\n", true, false⟩ "late\n").2.1.dtor
        (Impl.dtor ⟨⟨true, badbit, failbit⟩, ⟨false⟩⟩ ⟨some "old\n", true, false⟩ "late\n").2.2 ""
      = (Outcome.returned,
          (Impl.dtor ⟨⟨true, badbit, failbit⟩, ⟨false⟩⟩ ⟨some "old\n", true, false⟩ "late\n").2.1,
          (Impl.dtor ⟨⟨true, badbit, failbit⟩, ⟨false⟩⟩ ⟨some "old\n", true, false⟩ "late\n").2.2) :=
  ⟨by decide, by decide, by decide,
   (dtor_idempotent ⟨⟨true, badbit, failbit⟩, ⟨false⟩⟩ ⟨some "old\n", true, false⟩ "late\n" "").1⟩

/-! ## C8 -/

/-- C8. The console has no influence on `Log`: for every logger state, file and
message, and any two consoles whatsoever, `Log` gives the same outcome, the
same logger state and the same file. -/
theorem Log_independent_of_console (self : Impl) (d : File) (message : String)
    (c1 c2 : Console) :
    (self.Log ⟨c1, d⟩ message).map (fun r => (r.1, r.2.1, r.2.2.disk))
      = (self.Log ⟨c2, d⟩ message).map (fun r => (r.1, r.2.1, r.2.2.disk)) := by
  unfold Impl.Log
  cases self.m_Mutex.lock with
  | none => rfl
  | some mu =>
    simp only [Option.map_some', Impl.logBody]
    split <;> rfl

/-! ## C9 -/

/-- C9. `Log` releases the mutex on every exit path: for every logger state
whose mutex is free, whatever the stream, its exception mask, the file and the
console are, `Log` ends (by return or by exception), the mutex is free
afterwards, and a following `Log` call ends as well. -/
theorem Log_releases_mutex (self : Impl) (e : Env) (message next : String)
    (hfree : self.m_Mutex.locked = false) :
    ∃ r : Outcome × Impl × Env, self.Log e message = some r ∧
      r.2.1.m_Mutex.locked = false ∧ (r.2.1.Log r.2.2 next).isSome = true := by
  have key : ∀ (x : Impl) (y : Env) (m : String), x.m_Mutex.locked = false →
      ∃ r : Outcome × Impl × Env, x.Log y m = some r ∧ r.2.1.m_Mutex.locked = false := by
    intro x y m hx
    simp [Impl.Log, Mutex.lock, hx, Mutex.unlock]
  obtain ⟨r, hr, hl⟩ := key self e message hfree
  obtain ⟨r2, hr2, -⟩ := key r.2.1 r.2.2 next hl
  exact ⟨r, hr, hl, by simp [hr2]⟩

/-- C9, on the three exit paths: the write succeeds, the write fails and
raises (the mask holds `badbit`), the stream is not open. -/
theorem Log_releases_mutex_witness :
    (∃ r : Outcome × Impl × Env,
      Impl.Log ⟨⟨true, goodbit, goodbit⟩, ⟨false⟩⟩ ⟨⟨"", goodbit, true⟩, ⟨some "", true, true⟩⟩ "m"
        = some r ∧ r.2.1.m_Mutex.locked = false ∧ (r.2.1.Log r.2.2 "n").isSome = true) ∧
    (Impl.Log ⟨⟨true, goodbit, badbit⟩, ⟨false⟩⟩ ⟨⟨"", goodbit, true⟩, ⟨some "", true, false⟩⟩ "m").map
        (fun r => (r.1, r.2.1.m_Mutex.locked)) = some (Outcome.threw, false) ∧
    (Impl.Log ⟨⟨false, failbit, goodbit⟩, ⟨false⟩⟩ ⟨⟨"", goodbit, true⟩, ⟨none, false, true⟩⟩ "m").map
        (fun r => (r.1, r.2.1.m_Mutex.locked)) = some (Outcome.returned, false) :=
  ⟨Log_releases_mutex ⟨⟨true, goodbit, goodbit⟩, ⟨false⟩⟩
      ⟨⟨"", goodbit, true⟩, ⟨some "", true, true⟩⟩ "m" "n" rfl,
   by decide, by decide⟩

/-! ## The threads: list lemmas -/

theorem linesOf_append (a b : List String) : linesOf (a ++ b) = linesOf a ++ linesOf b := by
  induction a with
  | nil => simp [linesOf]
  | cons m ms ih => simp [linesOf, ih, String.append_assoc]

theorem pendingOf_eq_empty (ts : List Thread)
    (h : ∀ (j : Nat) (tj : Thread), ts[j]? = some tj → tj.pend = "") : pendingOf ts = "" := by
  induction ts with
  | nil => rfl
  | cons x xs ih =>
    have hx := h 0 x (by simp)
    have hxs := ih (fun j tj hj => h (j + 1) tj (by simpa using hj))
    simp [pendingOf, hx, hxs]

theorem pendingOf_set (ts : List Thread) (i : Nat) (t t2 : Thread)
    (hi : ts[i]? = some t)
    (hothers : ∀ (j : Nat) (tj : Thread), ts[j]? = some tj → j ≠ i → tj.pend = "") :
    pendingOf ts = t.pend ∧ pendingOf (ts.set i t2) = t2.pend := by
  induction ts generalizing i with
  | nil => simp at hi
  | cons x xs ih =>
    cases i with
    | zero =>
      simp at hi
      subst hi
      have hxs := pendingOf_eq_empty xs
        (fun j tj hj => hothers (j + 1) tj (by simpa using hj) (by simp))
      simp [pendingOf, hxs]
    | succ k =>
      have hx := hothers 0 x (by simp) (by simp)
      have := ih k (by simpa using hi) (fun j tj hj hne =>
        hothers (j + 1) tj (by simpa using hj) (by simpa using hne))
      simp [pendingOf, hx, this]

theorem flatten_set_perm {α : Type} (xs : List (List α)) (i : Nat) (m : α) (r : List α)
    (hi : xs[i]? = some (m :: r)) :
    (m :: (xs.set i r).flatten).Perm xs.flatten := by
  induction xs generalizing i with
  | nil => simp at hi
  | cons x xs ih =>
    cases i with
    | zero =>
      simp at hi
      subst hi
      simp
    | succ k =>
      have h := ih k (by simpa using hi)
      simp only [List.set_cons_succ, List.flatten_cons]
      exact (List.perm_middle.symm).trans (List.Perm.append_left x h)

theorem set_same {α : Type} (xs : List α) (i : Nat) (a : α) (hi : xs[i]? = some a) :
    xs.set i a = xs := by
  induction xs generalizing i with
  | nil => rfl
  | cons x xs ih =>
    cases i with
    | zero => simp at hi; simp [hi]
    | succ k => simp [ih k (by simpa using hi)]

theorem pendingOf_set_congr (ts : List Thread) (i : Nat) (t t2 : Thread)
    (hi : ts[i]? = some t) (hp : t2.pend = t.pend) :
    pendingOf (ts.set i t2) = pendingOf ts := by
  induction ts generalizing i with
  | nil => rfl
  | cons x xs ih =>
    cases i with
    | zero =>
      simp at hi
      subst hi
      simp [pendingOf, hp]
    | succ k => simp [pendingOf, ih k (by simpa using hi)]

theorem getElem?_set_cases {α : Type} (xs : List α) (i j : Nat) (a b : α)
    (h : (xs.set i a)[j]? = some b) :
    (j = i ∧ b = a) ∨ (j ≠ i ∧ xs[j]? = some b) := by
  rw [List.getElem?_set] at h
  by_cases hij : i = j
  · subst hij
    simp only [if_true] at h
    split at h
    · exact Or.inl ⟨rfl, (Option.some.inj h).symm⟩
    · exact absurd h (by simp)
  · simp only [hij, if_false] at h
    exact Or.inr ⟨fun e => hij e.symm, h⟩

/-! ## The threads: the invariant is kept by every step -/

theorem Inv.others_out {c0 : String} {progs : List (List String)} {s : Sys}
    (h : Inv c0 progs s) {i : Nat} {t : Thread} (hti : s.threads[i]? = some t)
    (ht : t.inCS = true) :
    ∀ (j : Nat) (tj : Thread), j ≠ i → s.threads[j]? = some tj → tj.inCS = false := by
  intro j tj hne hj
  cases hcs : tj.inCS with
  | false => rfl
  | true => exact absurd (h.excl j i tj t hj hti hcs ht) hne

theorem Inv.others_out_of_free {c0 : String} {progs : List (List String)} {s : Sys}
    (h : Inv c0 progs s) (hfree : s.proc.locked = false) :
    ∀ (j : Nat) (tj : Thread), s.threads[j]? = some tj → tj.inCS = false := by
  intro j tj hj
  cases hcs : tj.inCS with
  | false => rfl
  | true =>
    have := (h.local_ j tj hj).2.2.2 hcs
    rw [hfree] at this
    exact absurd this (by simp)

/-- The frame of a step of thread `i`: what has to be checked of the new
process `p2` and the new thread `t2`. -/
theorem Inv.update {c0 : String} {progs : List (List String)} {s : Sys}
    (h : Inv c0 progs s) {i : Nat} (p2 : Process) (t2 : Thread)
    (hterm : t2.pc ≠ Pc.terminated)
    (husable : p2.sinkUsable)
    (hthrew : t2.pc ≠ Pc.atUnlock Outcome.threw)
    (htodo : t2.todo = [] → t2.pc = Pc.atGetInstance)
    (hlock : t2.inCS = true → p2.locked = true)
    (hothers : ∀ (j : Nat) (tj : Thread), j ≠ i → s.threads[j]? = some tj → tj.inCS = true →
      p2.locked = true ∧ t2.inCS = false)
    (hcontent : ∃ L : List (Nat × String),
      p2.env.disk.text = c0 ++ linesOf (L.map Prod.snd) ++ pendingOf (s.threads.set i t2) ∧
      (L.map Prod.snd ++ ((s.threads.set i t2).map Thread.rem).flatten).Perm progs.flatten ∧
      ∀ (j : Nat) (tj : Thread), (s.threads.set i t2)[j]? = some tj →
        progs[j]? = some ((L.filter (fun x => decide (x.1 = j))).map Prod.snd ++ tj.rem)) :
    Inv c0 progs { proc := p2, threads := s.threads.set i t2,
                   aborted := decide (t2.pc = Pc.terminated) } := by
  refine ⟨by simp [hterm], husable, ?_, ?_, by simpa using h.size, hcontent⟩
  · intro j tj hj
    rcases getElem?_set_cases _ _ _ _ _ hj with ⟨-, rfl⟩ | ⟨hne, hj2⟩
    · exact ⟨hterm, hthrew, htodo, hlock⟩
    · have ho := h.local_ j tj hj2
      exact ⟨ho.1, ho.2.1, ho.2.2.1, fun hcs => (hothers j tj hne hj2 hcs).1⟩
  · intro a b ta tb ha hb hca hcb
    rcases getElem?_set_cases _ _ _ _ _ ha with ⟨ea, rfl⟩ | ⟨nea, ha2⟩
    · rcases getElem?_set_cases _ _ _ _ _ hb with ⟨eb, rfl⟩ | ⟨neb, hb2⟩
      · rw [ea, eb]
      · have := (hothers b tb neb hb2 hcb).2
        rw [hca] at this
        exact absurd this (by simp)
    · rcases getElem?_set_cases _ _ _ _ _ hb with ⟨eb, rfl⟩ | ⟨neb, hb2⟩
      · have := (hothers a ta nea ha2 hca).2
        rw [hcb] at this
        exact absurd this (by simp)
      · exact h.excl a b ta tb ha2 hb2 hca hcb

/-- The content part of the invariant is kept by a step that leaves the text of
the file, the open messages of the thread and its unterminated text alone. -/
theorem Inv.content_frame {c0 : String} {progs : List (List String)} {s : Sys}
    (h : Inv c0 progs s) {i : Nat} {t : Thread} (hti : s.threads[i]? = some t)
    (p2 : Process) (t2 : Thread)
    (htext : p2.env.disk.text = s.proc.env.disk.text)
    (hrem : t2.rem = t.rem) (hpend : t2.pend = t.pend) :
    ∃ L : List (Nat × String),
      p2.env.disk.text = c0 ++ linesOf (L.map Prod.snd) ++ pendingOf (s.threads.set i t2) ∧
      (L.map Prod.snd ++ ((s.threads.set i t2).map Thread.rem).flatten).Perm progs.flatten ∧
      ∀ (j : Nat) (tj : Thread), (s.threads.set i t2)[j]? = some tj →
        progs[j]? = some ((L.filter (fun x => decide (x.1 = j))).map Prod.snd ++ tj.rem) := by
  obtain ⟨L, h1, h2, h3⟩ := h.content
  refine ⟨L, ?_, ?_, ?_⟩
  · rw [htext, h1, pendingOf_set_congr _ _ _ _ hti hpend]
  · have : (s.threads.set i t2).map Thread.rem = s.threads.map Thread.rem := by
      rw [List.map_set, hrem]
      exact set_same _ _ _ (by simp [List.getElem?_map, hti])
    rw [this]
    exact h2
  · intro j tj hj
    rcases getElem?_set_cases _ _ _ _ _ hj with ⟨rfl, rfl⟩ | ⟨-, hj2⟩
    · rw [hrem]
      exact h3 _ t hti
    · exact h3 j tj hj2

theorem pend_of_not_inCS (t : Thread) (h : t.inCS = false) : t.pend = "" := by
  cases t with
  | mk pc todo => cases pc <;> simp_all [Thread.inCS, Thread.pend]

theorem GetInstance_usable (p : Process) (hu : p.sinkUsable) :
    (Logger.GetInstance p).2.sinkUsable ∧
    (Logger.GetInstance p).2.env.disk.text = p.env.disk.text ∧
    (p.locked = true → (Logger.GetInstance p).2.locked = true) := by
  cases hl : p.staticInstance with
  | some l =>
    rw [GetInstance_of_some p l hl]
    exact ⟨hu, rfl, fun h => h⟩
  | none =>
    have hopen := hu.2.1 hl
    refine ⟨?_, ?_, ?_⟩
    · simp [Logger.GetInstance, hl, ctor_openable _ hopen, Process.sinkUsable, hu.1]
    · simp [Logger.GetInstance, hl, ctor_openable _ hopen, File.text]
    · intro h
      simp [Process.locked, hl] at h

theorem Inv.step {c0 : String} {progs : List (List String)} {s : Sys}
    (h : Inv c0 progs s) (i : Nat) : Inv c0 progs (s.step i) := by
  unfold Sys.step
  simp only [h.notAborted, Bool.false_eq_true, if_false]
  cases hti : s.threads[i]? with
  | none => exact h
  | some t =>
    simp only []
    cases hst : stepThread s.proc t with
    | none => exact h
    | some r =>
      simp only []
      obtain ⟨pc, todo⟩ := t
      cases todo with
      | nil => simp [stepThread] at hst
      | cons m rest =>
        have hloc := h.local_ i _ hti
        cases pc with
        | atGetInstance =>
          simp [stepThread] at hst
          subst hst
          have hg := GetInstance_usable s.proc h.usable
          refine h.update _ _ (by simp) hg.1 (by simp) (by simp) (by simp [Thread.inCS]) ?_ ?_
          · intro j tj hne hj hcs
            exact ⟨hg.2.2 ((h.local_ j tj hj).2.2.2 hcs), by simp [Thread.inCS]⟩
          · exact h.content_frame hti _ _ hg.2.1 (by simp [Thread.rem]) (by simp [Thread.pend])
        | terminated => simp [stepThread] at hst
        | atLock =>
          cases hl : s.proc.staticInstance with
          | none => simp [stepThread, hl] at hst
          | some l =>
            cases hlk : l.m_pImpl.m_Mutex.locked with
            | true => simp [stepThread, hl, Mutex.lock, hlk] at hst
            | false =>
              simp [stepThread, hl, Mutex.lock, hlk] at hst
              subst hst
              have hfree : s.proc.locked = false := by simp [Process.locked, hl, hlk]
              have hout := h.others_out_of_free hfree
              have hu := h.usable
              refine h.update _ _ (by simp) ?_ (by simp) (by simp) ?_ ?_ ?_
              · refine ⟨hu.1, by simp [Process.setImpl], ?_⟩
                intro l2 hl2
                simp [Process.setImpl] at hl2
                subst hl2
                exact hu.2.2 l hl
              · intro _
                simp [Process.locked, Process.setImpl]
              · intro j tj _ hj hcs
                rw [hout j tj hj] at hcs
                exact absurd hcs (by simp)
              · exact h.content_frame hti _ _ rfl (by simp [Thread.rem]) (by simp [Thread.pend])
        | atConsole =>
          cases hl : s.proc.staticInstance with
          | none => simp [stepThread, hl] at hst
          | some l =>
            simp [stepThread, hl] at hst
            subst hst
            have hlocked := hloc.2.2.2 (by simp [Thread.inCS])
            have hout := h.others_out hti (by simp [Thread.inCS])
            have hu := h.usable
            refine h.update _ _ (by simp) ?_ (by simp) (by simp) ?_ ?_ ?_
            · refine ⟨hu.1, by simp, ?_⟩
              intro l2 hl2
              simp at hl2
              subst hl2
              exact hu.2.2 l hl
            · intro _
              simpa [Process.locked, hl] using hlocked
            · intro j tj hne hj hcs
              rw [hout j tj hne hj] at hcs
              exact absurd hcs (by simp)
            · exact h.content_frame hti _ _ rfl (by simp [Thread.rem]) (by simp [Thread.pend])
        | atIsOpen =>
          cases hl : s.proc.staticInstance with
          | none => simp [stepThread, hl] at hst
          | some l =>
            have hu := h.usable
            have hopen := (hu.2.2 l hl).1
            simp [stepThread, hl, hopen] at hst
            subst hst
            have hlocked := hloc.2.2.2 (by simp [Thread.inCS])
            have hout := h.others_out hti (by simp [Thread.inCS])
            refine h.update _ _ (by simp) hu (by simp) (by simp) (fun _ => hlocked) ?_ ?_
            · intro j tj hne hj hcs
              rw [hout j tj hne hj] at hcs
              exact absurd hcs (by simp)
            · exact h.content_frame hti _ _ rfl (by simp [Thread.rem]) (by simp [Thread.pend])
        | atInsert =>
          cases hl : s.proc.staticInstance with
          | none => simp [stepThread, hl] at hst
          | some l =>
            have hu := h.usable
            have hopen := (hu.2.2 l hl).1
            have hgood : l.m_pImpl.m_LogFile.rdstate.good = true :=
              (IoState.good_iff _).2 (hu.2.2 l hl).2
            simp [stepThread, hl, insert_ok _ _ m hopen hgood hu.1] at hst
            subst hst
            have hlocked := hloc.2.2.2 (by simp [Thread.inCS])
            have hout := h.others_out hti (by simp [Thread.inCS])
            refine h.update _ _ (by simp) ?_ (by simp) (by simp) ?_ ?_ ?_
            · refine ⟨by simpa [File.append] using hu.1, by simp [Process.setImpl], ?_⟩
              intro l2 hl2
              simp [Process.setImpl] at hl2
              subst hl2
              exact hu.2.2 l hl
            · intro _
              simpa [Process.locked, Process.setImpl, hl] using hlocked
            · intro j tj hne hj hcs
              rw [hout j tj hne hj] at hcs
              exact absurd hcs (by simp)
            · obtain ⟨L, h1, h2, h3⟩ := h.content
              have hp := pendingOf_set s.threads i _ ⟨Pc.atEndl, m :: rest⟩ hti
                (fun j tj hj hne => pend_of_not_inCS tj (hout j tj hne hj))
              refine ⟨L, ?_, ?_, ?_⟩
              · simp only [File.text_append]
                rw [h1, hp.1, hp.2]
                simp [Thread.pend, String.append_assoc]
              · have : (s.threads.set i ⟨Pc.atEndl, m :: rest⟩).map Thread.rem
                    = s.threads.map Thread.rem := by
                  rw [List.map_set]
                  exact set_same _ _ _ (by simp [List.getElem?_map, hti, Thread.rem])
                rw [this]
                exact h2
              · intro j tj hj
                rcases getElem?_set_cases _ _ _ _ _ hj with ⟨rfl, rfl⟩ | ⟨-, hj2⟩
                · simpa [Thread.rem] using h3 _ _ hti
                · exact h3 j tj hj2
        | atEndl =>
          cases hl : s.proc.staticInstance with
          | none => simp [stepThread, hl] at hst
          | some l =>
            have hu := h.usable
            have hopen := (hu.2.2 l hl).1
            have hgood : l.m_pImpl.m_LogFile.rdstate.good = true :=
              (IoState.good_iff _).2 (hu.2.2 l hl).2
            simp [stepThread, hl, insert_ok _ _ "\n" hopen hgood hu.1] at hst
            subst hst
            have hlocked := hloc.2.2.2 (by simp [Thread.inCS])
            have hout := h.others_out hti (by simp [Thread.inCS])
            refine h.update _ _ (by simp) ?_ (by simp) (by simp) ?_ ?_ ?_
            · refine ⟨by simpa [File.append] using hu.1, by simp [Process.setImpl], ?_⟩
              intro l2 hl2
              simp [Process.setImpl] at hl2
              subst hl2
              exact hu.2.2 l hl
            · intro _
              simpa [Process.locked, Process.setImpl, hl] using hlocked
            · intro j tj hne hj hcs
              rw [hout j tj hne hj] at hcs
              exact absurd hcs (by simp)
            · obtain ⟨L, h1, h2, h3⟩ := h.content
              have hp := pendingOf_set s.threads i _ ⟨Pc.atUnlock Outcome.returned, m :: rest⟩ hti
                (fun j tj hj hne => pend_of_not_inCS tj (hout j tj hne hj))
              refine ⟨L ++ [(i, m)], ?_, ?_, ?_⟩
              · simp only [File.text_append]
                rw [h1, hp.1, hp.2]
                simp [Thread.pend, linesOf_append, linesOf, String.append_assoc]
              · have hset : (s.threads.set i ⟨Pc.atUnlock Outcome.returned, m :: rest⟩).map Thread.rem
                    = (s.threads.map Thread.rem).set i rest := by
                  rw [List.map_set]
                  simp [Thread.rem]
                have hperm := flatten_set_perm (s.threads.map Thread.rem) i m rest
                  (by simp [List.getElem?_map, hti, Thread.rem])
                rw [hset]
                simp only [List.map_append, List.map_cons, List.map_nil, List.append_assoc,
                  List.singleton_append]
                exact (List.Perm.append_left _ hperm).trans h2
              · intro j tj hj
                rcases getElem?_set_cases _ _ _ _ _ hj with ⟨rfl, rfl⟩ | ⟨hne, hj2⟩
                · have := h3 _ _ hti
                  simpa [Thread.rem, List.filter_append] using this
                · have := h3 j tj hj2
                  have hne2 : ¬ i = j := fun e => hne e.symm
                  simpa [List.filter_append, hne2] using this
        | atUnlock o =>
          cases hl : s.proc.staticInstance with
          | none => simp [stepThread, hl] at hst
          | some l =>
            cases o with
            | threw => exact absurd rfl hloc.2.1
            | returned =>
              simp [stepThread, hl, Mutex.unlock] at hst
              subst hst
              have hout := h.others_out hti (by simp [Thread.inCS])
              have hu := h.usable
              refine h.update _ _ (by simp) ?_ (by simp) (by simp) (by simp [Thread.inCS]) ?_ ?_
              · refine ⟨hu.1, by simp [Process.setImpl], ?_⟩
                intro l2 hl2
                simp [Process.setImpl] at hl2
                subst hl2
                exact hu.2.2 l hl
              · intro j tj hne hj hcs
                rw [hout j tj hne hj] at hcs
                exact absurd hcs (by simp)
              · exact h.content_frame hti _ _ rfl (by simp [Thread.rem]) (by simp [Thread.pend])

theorem Inv.run {c0 : String} {progs : List (List String)} (sched : List Nat) {s : Sys}
    (h : Inv c0 progs s) : Inv c0 progs (s.run sched) := by
  induction sched generalizing s with
  | nil => exact h
  | cons i is ih => exact ih (h.step i)

theorem flatten_map_todo (progs : List (List String)) :
    ((progs.map (fun ms => ({ pc := Pc.atGetInstance, todo := ms } : Thread))).map
      Thread.rem).flatten = progs.flatten := by
  induction progs with
  | nil => rfl
  | cons x xs ih =>
    simp only [List.map_cons, List.flatten_cons, ih]
    rfl

theorem Inv.spawn (p : Process) (progs : List (List String)) (hu : p.sinkUsable) :
    Inv p.env.disk.text progs (Sys.spawn p progs) := by
  have hpc : ∀ (j : Nat) (tj : Thread), (Sys.spawn p progs).threads[j]? = some tj →
      ∃ ms, progs[j]? = some ms ∧ tj = { pc := Pc.atGetInstance, todo := ms } := by
    intro j tj hj
    simp only [Sys.spawn, List.getElem?_map] at hj
    cases hp : progs[j]? with
    | none => simp [hp] at hj
    | some ms =>
      simp [hp] at hj
      exact ⟨ms, rfl, hj.symm⟩
  refine ⟨rfl, hu, ?_, ?_, by simp [Sys.spawn], ⟨[], ?_, ?_, ?_⟩⟩
  · intro j tj hj
    obtain ⟨ms, -, rfl⟩ := hpc j tj hj
    simp [Thread.inCS]
  · intro i j ti tj hi _ hci _
    obtain ⟨ms, -, rfl⟩ := hpc i ti hi
    simp [Thread.inCS] at hci
  · have : pendingOf (Sys.spawn p progs).threads = "" :=
      pendingOf_eq_empty _ (fun j tj hj => by
        obtain ⟨ms, -, rfl⟩ := hpc j tj hj
        rfl)
    rw [this]
    simp [linesOf, Sys.spawn]
  · simp only [Sys.spawn, List.map_nil, List.nil_append, flatten_map_todo]
    exact List.Perm.refl _
  · intro j tj hj
    obtain ⟨ms, hms, rfl⟩ := hpc j tj hj
    simpa [Thread.rem] using hms

theorem flatten_eq_nil_of_forall {α : Type} (xs : List (List α)) (h : ∀ x ∈ xs, x = []) :
    xs.flatten = [] := by
  induction xs with
  | nil => rfl
  | cons x xs ih =>
    simp [h x (by simp), ih (fun y hy => h y (by simp [hy]))]

/-- What the invariant says once every thread is done: the file is its
initial text followed by complete lines, one for each message of each thread. -/
theorem Inv.finished {c0 : String} {progs : List (List String)} {s : Sys}
    (h : Inv c0 progs s) (hfin : s.finished) :
    ∃ L : List (Nat × String),
      s.proc.env.disk.text = c0 ++ linesOf (L.map Prod.snd) ∧
      (L.map Prod.snd).Perm progs.flatten ∧
      ∀ (j : Nat) (ms : List String), progs[j]? = some ms →
        (L.filter (fun x => decide (x.1 = j))).map Prod.snd = ms := by
  obtain ⟨L, h1, h2, h3⟩ := h.content
  have hpc : ∀ (j : Nat) (tj : Thread), s.threads[j]? = some tj →
      tj.pc = Pc.atGetInstance ∧ tj.todo = [] := by
    intro j tj hj
    have hm : tj ∈ s.threads := List.getElem?_mem hj
    exact ⟨(h.local_ j tj hj).2.2.1 (hfin tj hm), hfin tj hm⟩
  have hrem : ∀ (j : Nat) (tj : Thread), s.threads[j]? = some tj → tj.rem = [] := by
    intro j tj hj
    obtain ⟨h1, h2⟩ := hpc j tj hj
    simp [Thread.rem, h1, h2]
  have hpend : pendingOf s.threads = "" :=
    pendingOf_eq_empty _ (fun j tj hj => by
      simp [Thread.pend, (hpc j tj hj).1])
  have hflat : (s.threads.map Thread.rem).flatten = [] := by
    apply flatten_eq_nil_of_forall
    intro x hx
    obtain ⟨t, ht, rfl⟩ := List.mem_map.1 hx
    obtain ⟨j, hj⟩ := List.getElem?_of_mem ht
    exact hrem j t hj
  refine ⟨L, by simpa [hpend] using h1, by simpa [hflat] using h2, ?_⟩
  intro j ms hms
  have hlt : j < s.threads.length := by
    rw [h.size]
    exact (List.getElem?_eq_some_iff.1 hms).1
  have hj : s.threads[j]? = some s.threads[j] := List.getElem?_eq_getElem hlt
  have := h3 j _ hj
  rw [hrem j _ hj, List.append_nil, hms] at this
  exact (Option.some.inj this).symm

/-! ## Lines of a text -/

theorem fileLinesAux_line (cs : List Char) (rest cur : List Char) (h : '\n' ∉ cs) :
    fileLinesAux (cs ++ '\n' :: rest) cur
      = String.mk (cur.reverse ++ cs) :: fileLinesAux rest [] := by
  induction cs generalizing cur with
  | nil => simp [fileLinesAux]
  | cons c cs ih =>
    have hc : c ≠ '\n' := fun e => h (by simp [e])
    have hcs : '\n' ∉ cs := fun e => h (by simp [e])
    simp [fileLinesAux, hc, ih _ hcs]

theorem fileLines_linesOf (L : List String) (h : ∀ m ∈ L, '\n' ∉ m.data) :
    fileLines (linesOf L) = L := by
  induction L with
  | nil => rfl
  | cons m ms ih =>
    have hm := h m (by simp)
    have hms := ih (fun x hx => h x (by simp [hx]))
    have hdata : (linesOf (m :: ms)).data = m.data ++ '\n' :: (linesOf ms).data := by
      simp [linesOf, String.data_append]
    unfold fileLines at hms ⊢
    rw [hdata, fileLinesAux_line _ _ _ hm, hms]
    simp

/-! ## C2 -/

/-- The unterminated text in the file is empty or the current message of a
thread standing before the `std::endl` of line 63. -/
theorem Inv.pending_whole {c0 : String} {progs : List (List String)} {s : Sys}
    (h : Inv c0 progs s) :
    pendingOf s.threads = "" ∨ pendingOf s.threads ∈ progs.flatten := by
  by_cases hex : ∃ (j : Nat) (tj : Thread), s.threads[j]? = some tj ∧ tj.inCS = true
  · obtain ⟨j, tj, hj, hcs⟩ := hex
    have hout := h.others_out hj hcs
    have hp := (pendingOf_set s.threads j tj tj hj
      (fun a ta ha hne => pend_of_not_inCS ta (hout a ta hne ha))).1
    rw [hp]
    obtain ⟨L, -, -, h3⟩ := h.content
    have hprog := h3 j tj hj
    have hloc := h.local_ j tj hj
    cases tj with
    | mk pc todo =>
      cases pc with
      | atEndl =>
        cases todo with
        | nil => exact absurd (hloc.2.2.1 rfl) (by simp)
        | cons m rest =>
          right
          simp only [Thread.pend, List.headD_cons]
          have hmem : m ∈ (L.filter (fun x => decide (x.1 = j))).map Prod.snd ++ m :: rest := by
            simp
          exact List.mem_flatten.2 ⟨_, List.getElem?_mem hprog, hmem⟩
      | atGetInstance => left; rfl
      | atLock => left; rfl
      | atConsole => left; rfl
      | atIsOpen => left; rfl
      | atInsert => left; rfl
      | atUnlock o => left; rfl
      | terminated => left; rfl
  · left
    apply pendingOf_eq_empty
    intro j tj hj
    apply pend_of_not_inCS
    cases hcs : tj.inCS with
    | false => rfl
    | true => exact absurd ⟨j, tj, hj, hcs⟩ hex

/-- C2. Two threads log the messages `a` and `b` through a usable logger, under
any schedule.  At every moment the file is its initial text, followed by whole
lines, each the full text of one of the messages and its terminator, followed
by nothing or by the full text of one message whose terminator is the next
thing written to the file: the bytes of two messages are never mixed.  Once
both threads are done the file is the initial text followed by exactly one
whole line for each message issued. -/
theorem two_callers_write_whole_lines (p : Process) (a b : List String) (sched : List Nat)
    (hu : p.sinkUsable) :
    ∃ (L : List String) (open_ : String),
      ((Sys.spawn p [a, b]).run sched).proc.env.disk.text
        = p.env.disk.text ++ linesOf L ++ open_ ∧
      (∀ m ∈ L, m ∈ a ∨ m ∈ b) ∧
      (open_ = "" ∨ open_ ∈ a ∨ open_ ∈ b) ∧
      (((Sys.spawn p [a, b]).run sched).finished →
        open_ = "" ∧ L.Perm (a ++ b) ∧ L.length = a.length + b.length) := by
  have hinv : Inv p.env.disk.text [a, b] ((Sys.spawn p [a, b]).run sched) :=
    (Inv.spawn p [a, b] hu).run sched
  obtain ⟨L, h1, h2, -⟩ := hinv.content
  refine ⟨L.map Prod.snd, pendingOf ((Sys.spawn p [a, b]).run sched).threads, h1, ?_, ?_, ?_⟩
  · intro m hm
    have : m ∈ [a, b].flatten := h2.subset (List.mem_append_left _ hm)
    simpa using this
  · rcases hinv.pending_whole with h0 | hmem
    · exact Or.inl h0
    · right
      simpa using hmem
  · intro hfin
    obtain ⟨L2, g1, g2, -⟩ := hinv.finished hfin
    have hpend : pendingOf ((Sys.spawn p [a, b]).run sched).threads = "" := by
      apply pendingOf_eq_empty
      intro j tj hj
      have hm : tj ∈ ((Sys.spawn p [a, b]).run sched).threads := List.getElem?_mem hj
      simp [Thread.pend, (hinv.local_ j tj hj).2.2.1 (hfin tj hm)]
    have hflat : ((((Sys.spawn p [a, b]).run sched).threads).map Thread.rem).flatten = [] := by
      apply flatten_eq_nil_of_forall
      intro x hx
      obtain ⟨t, ht, rfl⟩ := List.mem_map.1 hx
      obtain ⟨j, hj⟩ := List.getElem?_of_mem ht
      simp [Thread.rem, (hinv.local_ j t hj).2.2.1 (hfin t ht), hfin t ht]
    have hperm : (L.map Prod.snd).Perm (a ++ b) := by
      simpa [hflat] using h2
    exact ⟨hpend, hperm, by simpa using hperm.length_eq⟩

set_option maxRecDepth 100000 in
/-- C2, for two threads logging twice `AAAA` and twice `BBBB` from a fresh
process, under a schedule that lets them take turns. -/
theorem two_callers_write_whole_lines_witness :
    ((Sys.spawn (Process.start ⟨⟨"", goodbit, true⟩, ⟨none, true, true⟩⟩)
        [["AAAA", "AAAA"], ["BBBB", "BBBB"]]).run (roundRobin 2 24)).finished ∧
    ((Sys.spawn (Process.start ⟨⟨"", goodbit, true⟩, ⟨none, true, true⟩⟩)
        [["AAAA", "AAAA"], ["BBBB", "BBBB"]]).run (roundRobin 2 24)).proc.env.disk.text
      = "AAAA\nBBBB\nAAAA\nBBBB\n" ∧
    ∃ (L : List String) (open_ : String),
      ((Sys.spawn (Process.start ⟨⟨"", goodbit, true⟩, ⟨none, true, true⟩⟩)
        [["AAAA", "AAAA"], ["BBBB", "BBBB"]]).run (roundRobin 2 24)).proc.env.disk.text
        = "" ++ linesOf L ++ open_ ∧
      (∀ m ∈ L, m ∈ ["AAAA", "AAAA"] ∨ m ∈ ["BBBB", "BBBB"]) ∧
      (open_ = "" ∨ open_ ∈ ["AAAA", "AAAA"] ∨ open_ ∈ ["BBBB", "BBBB"]) ∧
      (((Sys.spawn (Process.start ⟨⟨"", goodbit, true⟩, ⟨none, true, true⟩⟩)
        [["AAAA", "AAAA"], ["BBBB", "BBBB"]]).run (roundRobin 2 24)).finished →
        open_ = "" ∧ L.Perm (["AAAA", "AAAA"] ++ ["BBBB", "BBBB"]) ∧ L.length = 2 + 2) :=
  ⟨by decide, by decide,
   two_callers_write_whole_lines (Process.start ⟨⟨"", goodbit, true⟩, ⟨none, true, true⟩⟩)
     ["AAAA", "AAAA"] ["BBBB", "BBBB"] (roundRobin 2 24)
     ⟨rfl, fun _ => rfl, fun l hl => by simp [Process.start] at hl⟩⟩

/-! ## C10 -/

set_option maxRecDepth 100000 in
/-- C10, refuted as stated, twice.  The file sink is open, but the stream
carries the `badbit` of an earlier refused write: four threads log their five
messages each, all of them finish, and the file has gained nothing.  The same
happens on an open stream in good state over a device that refuses writes. -/
theorem open_sink_loses_messages_counterexample :
    ((Sys.spawn (Process.built ⟨⟨"", goodbit, true⟩, ⟨some "old\n", true, true⟩⟩
        ⟨true, badbit, goodbit⟩) (workerProgs 4 5)).run (roundRobin 4 110)).finished ∧
    ((Sys.spawn (Process.built ⟨⟨"", goodbit, true⟩, ⟨some "old\n", true, true⟩⟩
        ⟨true, badbit, goodbit⟩) (workerProgs 4 5)).run (roundRobin 4 110)).proc.env.disk.text
      = "old\n" ∧
    ((Sys.spawn (Process.built ⟨⟨"", goodbit, true⟩, ⟨some "old\n", true, false⟩⟩
        ⟨true, goodbit, goodbit⟩) (workerProgs 4 5)).run (roundRobin 4 110)).finished ∧
    ((Sys.spawn (Process.built ⟨⟨"", goodbit, true⟩, ⟨some "old\n", true, false⟩⟩
        ⟨true, goodbit, goodbit⟩) (workerProgs 4 5)).run (roundRobin 4 110)).proc.env.disk.text
      = "old\n" ∧
    (workerProgs 4 5).flatten.length = 20 := by
  refine ⟨by decide, by decide, by decide, by decide, by decide⟩

/-- C10, amended. Any number of threads log any lists of messages; the messages
hold no line terminator and are pairwise distinct.  The sink is usable: the
device accepts writes, and the file stream is open and in good state, or the
logger is not built yet and the file can be opened.  Under every schedule that
lets all threads finish, the text appended to the file is made of whole lines
only, and its lines are exactly the issued messages: as many lines as
messages, each message being one line, exactly once. -/
theorem every_message_is_one_line (p : Process) (progs : List (List String))
    (sched : List Nat) (hu : p.sinkUsable)
    (hfin : ((Sys.spawn p progs).run sched).finished)
    (hnl : ∀ m ∈ progs.flatten, '\n' ∉ m.data)
    (hdist : progs.flatten.Nodup) :
    ∃ appended : String,
      ((Sys.spawn p progs).run sched).proc.env.disk.text = p.env.disk.text ++ appended ∧
      appended = linesOf (fileLines appended) ∧
      (fileLines appended).Perm progs.flatten ∧
      (fileLines appended).length = progs.flatten.length ∧
      ∀ m ∈ progs.flatten, (fileLines appended).count m = 1 := by
  have hinv : Inv p.env.disk.text progs ((Sys.spawn p progs).run sched) :=
    (Inv.spawn p progs hu).run sched
  obtain ⟨L, h1, h2, -⟩ := hinv.finished hfin
  have hlines : fileLines (linesOf (L.map Prod.snd)) = L.map Prod.snd :=
    fileLines_linesOf _ (fun m hm => hnl m (h2.subset hm))
  refine ⟨linesOf (L.map Prod.snd), h1, by rw [hlines], by rw [hlines]; exact h2,
    by rw [hlines]; exact h2.length_eq, ?_⟩
  intro m hm
  rw [hlines, h2.count_eq]
  exact List.count_eq_one_of_mem hdist hm

set_option maxRecDepth 100000 in
/-- C10 amended, for four threads of five messages each, `Thread i - Message j`, from a
fresh process, the threads taking turns. -/
theorem every_message_is_one_line_witness :
    ((Sys.spawn (Process.start ⟨⟨"", goodbit, true⟩, ⟨some "old\n", true, true⟩⟩)
        (workerProgs 4 5)).run (roundRobin 4 110)).finished ∧
    ∃ appended : String,
      ((Sys.spawn (Process.start ⟨⟨"", goodbit, true⟩, ⟨some "old\n", true, true⟩⟩)
        (workerProgs 4 5)).run (roundRobin 4 110)).proc.env.disk.text = "old\n" ++ appended ∧
      appended = linesOf (fileLines appended) ∧
      (fileLines appended).Perm (workerProgs 4 5).flatten ∧
      (fileLines appended).length = (workerProgs 4 5).flatten.length ∧
      ∀ m ∈ (workerProgs 4 5).flatten, (fileLines appended).count m = 1 :=
  ⟨by decide,
   every_message_is_one_line (Process.start ⟨⟨"", goodbit, true⟩, ⟨some "old\n", true, true⟩⟩)
     (workerProgs 4 5) (roundRobin 4 110)
     ⟨rfl, fun _ => rfl, fun l hl => by simp [Process.start] at hl⟩
     (by decide) (by decide) (by decide)⟩

/-! ## C3 -/

/-- A step of a thread either is the call of `GetInstance` or keeps the logger
object and the construction count, changing at most its `Impl` and the
environment. -/
theorem stepThread_instance (p : Process) (t : Thread) (r : Process × Thread)
    (h : stepThread p t = some r) :
    r.1 = (Logger.GetInstance p).2 ∨
    ∃ (l : Logger) (f : Impl) (e : Env), p.staticInstance = some l ∧
      r.1 = { env := e, staticInstance := some { l with m_pImpl := f },
              constructions := p.constructions } := by
  obtain ⟨pc, todo⟩ := t
  cases todo with
  | nil => simp [stepThread] at h
  | cons m rest =>
    cases pc with
    | atGetInstance =>
      simp [stepThread] at h
      exact Or.inl (by rw [← h])
    | terminated => simp [stepThread] at h
    | atLock =>
      cases hl : p.staticInstance with
      | none => simp [stepThread, hl] at h
      | some l =>
        right
        cases hlk : l.m_pImpl.m_Mutex.locked with
        | true => simp [stepThread, hl, Mutex.lock, hlk] at h
        | false =>
          simp [stepThread, hl, Mutex.lock, hlk] at h
          exact ⟨l, _, _, rfl, by rw [← h]; rfl⟩
    | atConsole =>
      cases hl : p.staticInstance with
      | none => simp [stepThread, hl] at h
      | some l =>
        right
        simp [stepThread, hl] at h
        exact ⟨l, l.m_pImpl, _, rfl, by rw [← h]⟩
    | atIsOpen =>
      cases hl : p.staticInstance with
      | none => simp [stepThread, hl] at h
      | some l =>
        right
        simp [stepThread, hl] at h
        exact ⟨l, l.m_pImpl, p.env, rfl, by rw [← h, ← hl]⟩
    | atInsert =>
      cases hl : p.staticInstance with
      | none => simp [stepThread, hl] at h
      | some l =>
        right
        simp [stepThread, hl] at h
        exact ⟨l, _, _, rfl, by rw [← h]; rfl⟩
    | atEndl =>
      cases hl : p.staticInstance with
      | none => simp [stepThread, hl] at h
      | some l =>
        right
        simp [stepThread, hl] at h
        exact ⟨l, _, _, rfl, by rw [← h]; rfl⟩
    | atUnlock o =>
      cases hl : p.staticInstance with
      | none => simp [stepThread, hl] at h
      | some l =>
        right
        simp [stepThread, hl] at h
        exact ⟨l, _, _, rfl, by rw [← h]; rfl⟩

theorem builtOnce_step (s : Sys) (i : Nat) (h : s.proc.builtOnce) : (s.step i).proc.builtOnce := by
  unfold Sys.step
  cases hab : s.aborted with
  | true => simpa using h
  | false =>
    simp only [Bool.false_eq_true, if_false]
    cases hti : s.threads[i]? with
    | none => exact h
    | some t =>
      simp only []
      cases hst : stepThread s.proc t with
      | none => exact h
      | some r =>
        simp only []
        rcases stepThread_instance _ _ _ hst with hg | ⟨l, f, e, hl, hq⟩
        · rw [hg]
          cases hl : s.proc.staticInstance with
          | some l =>
            rw [GetInstance_of_some _ l hl]
            exact h
          | none =>
            have h0 := h.1
            simp [hl] at h0
            simp [Process.builtOnce, Logger.GetInstance, hl, h0]
        · rw [hq]
          have h0 := h.1
          simp [hl] at h0
          have := h.2 l hl
          simp [Process.builtOnce, h0, this]

theorem builtOnce_run (sched : List Nat) (s : Sys) (h : s.proc.builtOnce) :
    (s.run sched).proc.builtOnce := by
  induction sched generalizing s with
  | nil => exact h
  | cons i is ih => exact ih _ (builtOnce_step s i h)

/-- C3. For every `N ≥ 1`, in a process that has not called `GetInstance`
before, no construction has run before the first call, the first call runs the
constructor, and after `N` calls in a row the constructor has run exactly once
and all `N` calls have returned the same object, the one the first call built
and stored.  The same holds when the callers are threads that race: at every
moment of every schedule the constructor has run once if the logger exists and
not at all otherwise, and the stored logger is the first one built. -/
theorem GetInstance_single_instance (e : Env) (N : Nat) (hN : 1 ≤ N) :
    (Process.start e).constructions = 0 ∧
    (Process.start e).staticInstance = none ∧
    (Logger.GetInstance (Process.start e)).2.constructions = 1 ∧
    (getInstances N (Process.start e)).2.constructions = 1 ∧
    (getInstances N (Process.start e)).1.length = N ∧
    (∀ a ∈ (getInstances N (Process.start e)).1, ∀ b ∈ (getInstances N (Process.start e)).1, a = b) ∧
    (∀ a ∈ (getInstances N (Process.start e)).1,
      some a = (getInstances N (Process.start e)).2.staticInstance.map Logger.serial ∧
      a = (Logger.GetInstance (Process.start e)).1.serial) ∧
    (∀ (progs : List (List String)) (sched : List Nat),
      ((Sys.spawn (Process.start e) progs).run sched).proc.builtOnce) := by
  obtain ⟨k, rfl⟩ : ∃ k, N = k + 1 := ⟨N - 1, by omega⟩
  have hfirst : (Logger.GetInstance (Process.start e)).2.staticInstance
      = some (Logger.GetInstance (Process.start e)).1 := by
    simp [Logger.GetInstance, Process.start]
  have hrest := getInstances_of_some k _ _ hfirst
  have hall : getInstances (k + 1) (Process.start e)
      = (List.replicate (k + 1) (Logger.GetInstance (Process.start e)).1.serial,
         (Logger.GetInstance (Process.start e)).2) := by
    simp [getInstances, hrest, List.replicate_succ]
  rw [hall]
  refine ⟨rfl, rfl, ?_, ?_, ?_, ?_, ?_, ?_⟩
  · simp [Logger.GetInstance, Process.start]
  · simp [Logger.GetInstance, Process.start]
  · simp
  · intro a ha b hb
    rw [List.eq_of_mem_replicate ha, List.eq_of_mem_replicate hb]
  · intro a ha
    rw [List.eq_of_mem_replicate ha]
    simp [hfirst]
  · intro progs sched
    exact builtOnce_run sched _ ⟨rfl, fun l hl => by simp [Sys.spawn, Process.start] at hl⟩

set_option maxRecDepth 100000 in
/-- C3, at three calls in a process whose `log.txt` does not exist yet, and at
two threads racing to the first call. -/
theorem GetInstance_single_instance_witness :
    (getInstances 3 (Process.start ⟨⟨"", goodbit, true⟩, ⟨none, true, true⟩⟩)).2.constructions = 1 ∧
    (getInstances 3 (Process.start ⟨⟨"", goodbit, true⟩, ⟨none, true, true⟩⟩)).1 = [0, 0, 0] ∧
    ((Sys.spawn (Process.start ⟨⟨"", goodbit, true⟩, ⟨none, true, true⟩⟩) [["a"], ["b"]]).run
        [1, 0, 0, 1]).proc.constructions = 1 :=
  ⟨(GetInstance_single_instance ⟨⟨"", goodbit, true⟩, ⟨none, true, true⟩⟩ 3 (by decide)).2.2.2.1,
   by decide, by decide⟩

/-! ## The thread steps and the sequential `Log` agree -/

theorem run_cons (s : Sys) (i : Nat) (is : List Nat) : s.run (i :: is) = (s.step i).run is := rfl

set_option maxHeartbeats 1000000 in
/-- A thread that runs alone through its seven steps does what the sequential
`Logger::GetInstance().Log(message)` does. -/
theorem single_thread_agrees (p : Process) (m : String) (q : Process) (o : Outcome)
    (h : p.Log m = some (o, q)) :
    ((Sys.spawn p [[m]]).run (List.replicate 7 0)).proc = q ∧
    ((Sys.spawn p [[m]]).run (List.replicate 7 0)).aborted = decide (o = Outcome.threw) := by
  obtain ⟨⟨c, d⟩, inst, n⟩ := p
  cases inst with
  | none =>
    cases hop : d.openable <;> cases hw : d.writable <;>
      simp [Process.Log, Logger.GetInstance, Logger.Log, Impl.Log, Impl.logBody, Impl.ctor,
        OfStream.open, OfStream.default, OfStream.setstate, OfStream.insert, fileLine,
        Mutex.lock, Mutex.unlock, IoState.good, IoState.or, IoState.meets, goodbit, badbit,
        failbit, hop, hw] at h <;>
      obtain ⟨rfl, rfl⟩ := h <;>
      simp [Sys.spawn, List.replicate, run_cons, Sys.step, stepThread, Logger.GetInstance,
        Impl.ctor, OfStream.open, OfStream.default, OfStream.setstate, OfStream.insert,
        Mutex.lock, Mutex.unlock, IoState.good, IoState.or, IoState.meets, goodbit, badbit,
        failbit, hop, hw, Process.setImpl, Sys.run, File.append]
  | some l =>
    obtain ⟨⟨⟨op, ⟨b, f⟩, ⟨mb, mf⟩⟩, ⟨lk⟩⟩, ser⟩ := l
    cases lk with
    | true => simp [Process.Log, Logger.GetInstance, Logger.Log, Impl.Log, Mutex.lock] at h
    | false =>
      cases op <;> cases b <;> cases f <;> cases mb <;> cases mf <;> cases hw : d.writable <;>
        simp [Process.Log, Logger.GetInstance, Logger.Log, Impl.Log, Impl.logBody,
          OfStream.setstate, OfStream.insert, fileLine,
          Mutex.lock, Mutex.unlock, IoState.good, IoState.or, IoState.meets, goodbit, badbit,
          failbit, hw] at h <;>
        obtain ⟨rfl, rfl⟩ := h <;>
        simp [Sys.spawn, List.replicate, run_cons, Sys.step, stepThread, Logger.GetInstance,
          OfStream.setstate, OfStream.insert,
          Mutex.lock, Mutex.unlock, IoState.good, IoState.or, IoState.meets, goodbit, badbit,
          failbit, hw, Process.setImpl, Sys.run, File.append]

/-! ## C11 -/

theorem consoleLine_ok (c : Console) (message : String)
    (hgood : c.rdstate.good = true) (hav : c.available = true) :
    consoleLine c message = { c with output := c.output ++ "[LOG]: " ++ message ++ "\n" } := by
  simp [consoleLine, Console.insert, hgood, hav]

theorem Log_console (self : Impl) (e : Env) (message : String)
    (hfree : self.m_Mutex.locked = false) :
    ∃ r : Outcome × Impl × Env, self.Log e message = some r ∧
      r.2.2.cout = consoleLine e.cout message := by
  simp only [Impl.Log, Mutex.lock, hfree, Bool.false_eq_true, if_false, Impl.logBody]
  split <;> exact ⟨_, rfl, rfl⟩

/-- C11, refuted as stated: on a working console the text that `Log` writes
for the message `hi` is `[LOG]: hi` and its terminator, not the message alone,
while the file line is the message alone. -/
theorem console_text_counterexample :
    (Impl.Log ⟨⟨true, goodbit, goodbit⟩, ⟨false⟩⟩
        ⟨⟨"", goodbit, true⟩, ⟨some "", true, true⟩⟩ "hi").map
        (fun r => (r.2.2.cout.output, r.2.2.disk.content))
      = some ("[LOG]: hi\n", some "hi\n") ∧
    "[LOG]: hi\n" ≠ "hi" ++ "\n" := by
  decide

theorem Log_file_line (self : Impl) (e : Env) (message : String) (r : Outcome × Impl × Env)
    (hr : self.Log e message = some r)
    (hopen : self.m_LogFile.is_open = true) (hgood : self.m_LogFile.rdstate.good = true)
    (hwr : e.disk.writable = true) :
    r.2.2.disk.content = some (e.disk.text ++ message ++ "\n") := by
  unfold Impl.Log at hr
  cases hlk : self.m_Mutex.lock with
  | none => simp [hlk] at hr
  | some mu =>
    simp only [hlk, Impl.logBody, hopen, if_true,
      fileLine_ok _ _ message hopen hgood hwr, Option.some.injEq] at hr
    subst hr
    simp [File.append, File.text]

/-- C11, amended. For every message and every logger state with a free mutex,
when `std::cout` is good and the terminal accepts writes, `Log` ends and the
text it has written to the console is the fixed tag `[LOG]: ` followed by the
message itself and one line terminator, after what the console held before;
nothing else is added, and `std::cout` stays good.  The tag is on the console
only: when the file stream is open and good and the device accepts writes, the
line appended to the file is the message alone and its terminator. -/
theorem console_line_is_tag_and_message (self : Impl) (e : Env) (message : String)
    (hfree : self.m_Mutex.locked = false)
    (hgood : e.cout.rdstate.good = true) (hav : e.cout.available = true) :
    ∃ r : Outcome × Impl × Env, self.Log e message = some r ∧
      r.2.2.cout.output = e.cout.output ++ "[LOG]: " ++ message ++ "\n" ∧
      r.2.2.cout.rdstate = e.cout.rdstate ∧ r.2.2.cout.available = true ∧
      (self.m_LogFile.is_open = true → self.m_LogFile.rdstate.good = true →
        e.disk.writable = true →
        r.2.2.disk.content = some (e.disk.text ++ message ++ "\n")) := by
  obtain ⟨r, hr, hc⟩ := Log_console self e message hfree
  refine ⟨r, hr, ?_, ?_, ?_, fun ho hg hw => Log_file_line self e message r hr ho hg hw⟩ <;>
    rw [hc, consoleLine_ok _ _ hgood hav]
  exact hav

/-- C11 amended, at a console that already shows one line and a file that
already holds one. -/
theorem console_line_is_tag_and_message_witness :
    ∃ r : Outcome × Impl × Env,
      Impl.Log ⟨⟨true, goodbit, goodbit⟩, ⟨false⟩⟩
        ⟨⟨"shown\n", goodbit, true⟩, ⟨some "old\n", true, true⟩⟩ "hi" = some r ∧
      r.2.2.cout.output = "shown\n" ++ "[LOG]: " ++ "hi" ++ "\n" ∧
      r.2.2.cout.rdstate = goodbit ∧ r.2.2.cout.available = true ∧
      r.2.2.disk.content = some ("old\n" ++ "hi" ++ "\n") :=
  match console_line_is_tag_and_message ⟨⟨true, goodbit, goodbit⟩, ⟨false⟩⟩
      ⟨⟨"shown\n", goodbit, true⟩, ⟨some "old\n", true, true⟩⟩ "hi" rfl rfl rfl with
  | ⟨r, h1, h2, h3, h4, h5⟩ => ⟨r, h1, h2, h3, h4, h5 rfl rfl rfl⟩

/-! ## C12 -/

/-- Lines that carry the index of their caller, as many as there are messages,
and such that the lines of each caller are its messages: every index is the
index of a caller. -/
theorem tags_lt {α : Type} (progs : List (List α)) (L : List (Nat × α))
    (hlen : L.length = progs.flatten.length)
    (hper : ∀ (j : Nat) (ms : List α), progs[j]? = some ms →
      (L.filter (fun x => decide (x.1 = j))).map Prod.snd = ms) :
    ∀ x ∈ L, x.1 < progs.length := by
  induction progs generalizing L with
  | nil =>
    have : L = [] := List.length_eq_zero.1 (by simpa using hlen)
    subst this
    simp
  | cons p ps ih =>
    have h0 := hper 0 p (by simp)
    have hsplit := List.length_eq_countP_add_countP (fun x : Nat × α => decide (x.1 = 0)) L
    rw [List.countP_eq_length_filter, List.countP_eq_length_filter] at hsplit
    have hl0 : (L.filter (fun x => decide (x.1 = 0))).length = p.length := by
      rw [← h0, List.length_map]
    have key := ih ((L.filter (fun a => decide ¬ (decide (a.1 = 0) = true))).map
        (fun x => (x.1 - 1, x.2)))
      (by
        simp only [List.length_map]
        simp only [List.flatten_cons, List.length_append] at hlen
        omega)
      (by
        intro j ms hj
        have := hper (j + 1) ms (by simpa using hj)
        rw [← this, List.filter_map, List.map_map, List.filter_filter]
        have hf : (L.filter (fun a => ((fun x : Nat × α => decide (x.1 = j)) ∘
              (fun x : Nat × α => (x.1 - 1, x.2))) a && decide ¬ (decide (a.1 = 0) = true)))
            = L.filter (fun x => decide (x.1 = j + 1)) := by
          apply List.filter_congr
          intro x _
          by_cases h1 : x.1 = j + 1
          · have h2 : x.1 - 1 = j := by omega
            have h3 : ¬ x.1 = 0 := by omega
            simp [h1, h2, h3]
          · by_cases h3 : x.1 = 0
            · simp [h1, h3]
            · have h2 : ¬ x.1 - 1 = j := by omega
              simp [h1, h2, h3]
        rw [hf]
        rfl)
    intro x hx
    by_cases hx0 : x.1 = 0
    · simp [hx0]
    · have : (x.1 - 1, x.2) ∈ (L.filter (fun a => decide ¬ (decide (a.1 = 0) = true))).map
          (fun x => (x.1 - 1, x.2)) :=
        List.mem_map.2 ⟨x, List.mem_filter.2 ⟨hx, by simpa using hx0⟩, rfl⟩
      have := key _ this
      simp only [List.length_cons]
      simp only at this
      omega

/-- One `Logger::GetInstance().Log(message)` in a process whose sink is usable
and whose mutex is free. -/
theorem Log_usable (p : Process) (m : String) (hu : p.sinkUsable) (hfree : p.locked = false) :
    ∃ q : Process, p.Log m = some (Outcome.returned, q) ∧ q.sinkUsable ∧ q.locked = false ∧
      q.env.disk.text = p.env.disk.text ++ m ++ "\n" ∧
      q.env.cout = consoleLine p.env.cout m := by
  obtain ⟨hw, hnone, hsome⟩ := hu
  cases hl : p.staticInstance with
  | none =>
    have hop := hnone hl
    have hw2 : ({ p.env.disk with content := some p.env.disk.text } : File).writable = true := hw
    have hlog : p.Log m = some (Outcome.returned,
        { env := ⟨consoleLine p.env.cout m,
            (({ p.env.disk with content := some p.env.disk.text } : File).append m).append "\n"⟩,
          staticInstance := some ⟨⟨⟨true, goodbit, goodbit⟩, ⟨false⟩⟩, p.constructions⟩,
          constructions := p.constructions + 1 }) := by
      have h1 := Log_openLogger
        ⟨p.env.cout, { p.env.disk with content := some p.env.disk.text }⟩ m hw2
      simp only [Process.Log, Logger.GetInstance, hl, ctor_openable _ hop, Logger.Log]
      rw [h1]
    refine ⟨_, hlog, ⟨by simpa [File.append] using hw, by simp, ?_⟩, by simp [Process.locked],
      by simp [File.append, File.text, String.append_assoc], rfl⟩
    intro l2 hl2
    simp at hl2
    subst hl2
    exact ⟨rfl, rfl⟩
  | some l =>
    obtain ⟨hopen, hgood⟩ := hsome l hl
    have hg : l.m_pImpl.m_LogFile.rdstate.good = true := (IoState.good_iff _).2 hgood
    have hlk : l.m_pImpl.m_Mutex.locked = false := by simpa [Process.locked, hl] using hfree
    have hlog : p.Log m = some (Outcome.returned,
        { p with env := ⟨consoleLine p.env.cout m, (p.env.disk.append m).append "\n"⟩,
                 staticInstance := some { l with m_pImpl := ⟨l.m_pImpl.m_LogFile, ⟨false⟩⟩ } }) := by
      simp only [Process.Log, GetInstance_of_some p l hl, Logger.Log, Impl.Log, Mutex.lock, hlk,
        Bool.false_eq_true, if_false, Impl.logBody, hopen, if_true,
        fileLine_ok _ _ m hopen hg hw, Mutex.unlock]
    refine ⟨_, hlog, ⟨by simpa [File.append] using hw, by simp, ?_⟩, by simp [Process.locked],
      by simp [File.append, File.text, String.append_assoc], rfl⟩
    intro l2 hl2
    simp at hl2
    subst hl2
    exact ⟨hopen, hgood⟩

theorem logAll_usable (ms : List String) (p : Process) (hu : p.sinkUsable)
    (hfree : p.locked = false) :
    ∃ q : Process, p.logAll ms = some (List.replicate ms.length Outcome.returned, q) ∧
      q.sinkUsable ∧ q.locked = false ∧
      q.env.disk.text = p.env.disk.text ++ linesOf ms := by
  induction ms generalizing p with
  | nil => exact ⟨p, rfl, hu, hfree, by simp [linesOf]⟩
  | cons m ms ih =>
    obtain ⟨q1, h1, hu1, hf1, ht1, -⟩ := Log_usable p m hu hfree
    obtain ⟨q, h2, hu2, hf2, ht2⟩ := ih q1 hu1 hf1
    refine ⟨q, ?_, hu2, hf2, ?_⟩
    · simp [Process.logAll, h1, h2, List.replicate_succ]
    · rw [ht2, ht1]
      simp [linesOf, String.append_assoc]


set_option maxRecDepth 100000 in
/-- C12, refuted as stated.  On an open sink whose stream carries the `badbit`
of an earlier refused write, two callers log their messages and finish, and the
file has gained no line: the lines of a caller are not its messages.  And one
caller that logs three messages in a row on an open stream in good state over a
device that refuses writes sees three normal returns and no line in the
file. -/
theorem open_sink_keeps_no_order_counterexample :
    ((Sys.spawn (Process.built ⟨⟨"", goodbit, true⟩, ⟨some "old\n", true, true⟩⟩
        ⟨true, badbit, goodbit⟩) [["a1", "a2"], ["b1"]]).run (roundRobin 2 24)).finished ∧
    ((Sys.spawn (Process.built ⟨⟨"", goodbit, true⟩, ⟨some "old\n", true, true⟩⟩
        ⟨true, badbit, goodbit⟩) [["a1", "a2"], ["b1"]]).run (roundRobin 2 24)).proc.env.disk.text
      = "old\n" ∧
    ((Process.built ⟨⟨"", goodbit, true⟩, ⟨some "old\n", true, false⟩⟩
        ⟨true, goodbit, goodbit⟩).logAll ["x", "y", "z"]).map
        (fun r => (r.1, r.2.env.disk.text))
      = some ([Outcome.returned, Outcome.returned, Outcome.returned], "old\n") := by
  refine ⟨by decide, by decide, by decide⟩

/-- C12, amended. Per-caller order.  Any number of callers log their lists of
messages through a usable sink: the device accepts writes, and the file stream
is open and in good state, or the logger is not built yet and the file can be
opened.  Under every schedule that lets all of them finish,
the text appended to the file is a sequence of whole lines, each attributed to
one caller, and the lines attributed to a caller are exactly that caller's
messages in the order it issued them (when no message holds a line terminator
these lines are the lines of the appended text).  In particular one caller
that logs a list of messages in a row, the mutex being free, appends their
lines in list order. -/
theorem per_caller_order_is_kept (p : Process) (progs : List (List String))
    (sched : List Nat) (ms : List String) (hu : p.sinkUsable) :
    (((Sys.spawn p progs).run sched).finished →
      ∃ L : List (Nat × String),
        ((Sys.spawn p progs).run sched).proc.env.disk.text
          = p.env.disk.text ++ linesOf (L.map Prod.snd) ∧
        (∀ x ∈ L, x.1 < progs.length) ∧
        (∀ (j : Nat) (mj : List String), progs[j]? = some mj →
          (L.filter (fun x => decide (x.1 = j))).map Prod.snd = mj) ∧
        ((∀ m ∈ progs.flatten, '\n' ∉ m.data) →
          fileLines (linesOf (L.map Prod.snd)) = L.map Prod.snd)) ∧
    (p.locked = false →
      ∃ q : Process, p.logAll ms = some (List.replicate ms.length Outcome.returned, q) ∧
        q.env.disk.text = p.env.disk.text ++ linesOf ms) := by
  constructor
  · intro hfin
    have hinv : Inv p.env.disk.text progs ((Sys.spawn p progs).run sched) :=
      (Inv.spawn p progs hu).run sched
    obtain ⟨L, h1, h2, h3⟩ := hinv.finished hfin
    refine ⟨L, h1, ?_, h3, ?_⟩
    · exact tags_lt progs L (by simpa using h2.length_eq) h3
    · intro hnl
      exact fileLines_linesOf _ (fun m hm => hnl m (h2.subset hm))
  · intro hfree
    obtain ⟨q, hq, -, -, ht⟩ := logAll_usable ms p hu hfree
    exact ⟨q, hq, ht⟩

set_option maxRecDepth 100000 in
/-- C12 amended, for two callers, the first with two messages and the second with one,
taking turns from a fresh process, and for one caller logging three messages in
a row. -/
theorem per_caller_order_is_kept_witness :
    ((Sys.spawn (Process.start ⟨⟨"", goodbit, true⟩, ⟨none, true, true⟩⟩)
        [["a1", "a2"], ["b1"]]).run (roundRobin 2 24)).finished ∧
    ((Sys.spawn (Process.start ⟨⟨"", goodbit, true⟩, ⟨none, true, true⟩⟩)
        [["a1", "a2"], ["b1"]]).run (roundRobin 2 24)).proc.env.disk.text = "a1\nb1\na2\n" ∧
    ((Process.start ⟨⟨"", goodbit, true⟩, ⟨none, true, true⟩⟩).logAll ["x", "y", "z"]).map
        (fun r => (r.1, r.2.env.disk.text))
      = some ([Outcome.returned, Outcome.returned, Outcome.returned], "x\ny\nz\n") ∧
    ((Process.start ⟨⟨"", goodbit, true⟩, ⟨none, true, true⟩⟩).locked = false →
      ∃ q : Process,
        (Process.start ⟨⟨"", goodbit, true⟩, ⟨none, true, true⟩⟩).logAll ["x", "y", "z"]
          = some (List.replicate 3 Outcome.returned, q) ∧
        q.env.disk.text = "" ++ linesOf ["x", "y", "z"]) :=
  ⟨by decide, by decide, by decide,
   (per_caller_order_is_kept (Process.start ⟨⟨"", goodbit, true⟩, ⟨none, true, true⟩⟩)
     [["a1", "a2"], ["b1"]] (roundRobin 2 24) ["x", "y", "z"]
     ⟨rfl, fun _ => rfl, fun l hl => by simp [Process.start] at hl⟩).2⟩

/-! ## C13 -/

/-- The mutex after a step of a thread: if it is held, the thread holds it, or
it was held before and the thread was outside the guard. -/
theorem stepThread_lock (p : Process) (t : Thread) (r : Process × Thread)
    (h : stepThread p t = some r) (hl : r.1.locked = true) :
    r.2.inCS = true ∨ (p.locked = true ∧ t.inCS = false) := by
  obtain ⟨pc, todo⟩ := t
  cases todo with
  | nil => simp [stepThread] at h
  | cons m rest =>
    cases pc with
    | atGetInstance =>
      simp [stepThread] at h
      subst h
      right
      refine ⟨?_, rfl⟩
      cases hi : p.staticInstance with
      | some l => simpa [GetInstance_of_some p l hi] using hl
      | none =>
        simp [Logger.GetInstance, hi, Process.locked, Impl.ctor] at hl
    | terminated => simp [stepThread] at h
    | atLock =>
      cases hi : p.staticInstance with
      | none => simp [stepThread, hi] at h
      | some l =>
        cases hlk : l.m_pImpl.m_Mutex.locked with
        | true => simp [stepThread, hi, Mutex.lock, hlk] at h
        | false =>
          simp [stepThread, hi, Mutex.lock, hlk] at h
          subst h
          exact Or.inl rfl
    | atConsole =>
      cases hi : p.staticInstance with
      | none => simp [stepThread, hi] at h
      | some l =>
        simp [stepThread, hi] at h
        subst h
        exact Or.inl rfl
    | atIsOpen =>
      cases hi : p.staticInstance with
      | none => simp [stepThread, hi] at h
      | some l =>
        simp [stepThread, hi] at h
        subst h
        left
        cases l.m_pImpl.m_LogFile.is_open <;> rfl
    | atInsert =>
      cases hi : p.staticInstance with
      | none => simp [stepThread, hi] at h
      | some l =>
        simp [stepThread, hi] at h
        subst h
        left
        cases (l.m_pImpl.m_LogFile.insert p.env.disk m).1 <;> rfl
    | atEndl =>
      cases hi : p.staticInstance with
      | none => simp [stepThread, hi] at h
      | some l =>
        simp [stepThread, hi] at h
        subst h
        exact Or.inl rfl
    | atUnlock o =>
      cases hi : p.staticInstance with
      | none => simp [stepThread, hi] at h
      | some l =>
        simp [stepThread, hi] at h
        subst h
        simp [Process.locked, Process.setImpl, Mutex.unlock] at hl

/-- Whoever holds the mutex: when the mutex is held, some thread is inside the
scope of the guard. -/
theorem held_step (s : Sys) (i : Nat)
    (h : s.proc.locked = true → ∃ (j : Nat) (tj : Thread), s.threads[j]? = some tj ∧ tj.inCS = true) :
    (s.step i).proc.locked = true →
      ∃ (j : Nat) (tj : Thread), (s.step i).threads[j]? = some tj ∧ tj.inCS = true := by
  unfold Sys.step
  cases hab : s.aborted with
  | true => simpa using h
  | false =>
    simp only [Bool.false_eq_true, if_false]
    cases hti : s.threads[i]? with
    | none => exact h
    | some t =>
      simp only []
      cases hst : stepThread s.proc t with
      | none => exact h
      | some r =>
        simp only []
        intro hl
        have hlen : i < s.threads.length := (List.getElem?_eq_some_iff.1 hti).1
        rcases stepThread_lock _ _ _ hst hl with hin | ⟨hp, ht⟩
        · exact ⟨i, r.2, by simp [List.getElem?_set, hlen], hin⟩
        · obtain ⟨j, tj, hj, hcs⟩ := h hp
          have hne : i ≠ j := by
            intro e
            subst e
            rw [hti] at hj
            cases hj
            rw [ht] at hcs
            exact absurd hcs (by simp)
          exact ⟨j, tj, by rw [List.getElem?_set_ne hne]; exact hj, hcs⟩

theorem held_run (sched : List Nat) (s : Sys)
    (h : s.proc.locked = true → ∃ (j : Nat) (tj : Thread), s.threads[j]? = some tj ∧ tj.inCS = true) :
    (s.run sched).proc.locked = true →
      ∃ (j : Nat) (tj : Thread), (s.run sched).threads[j]? = some tj ∧ tj.inCS = true := by
  induction sched generalizing s with
  | nil => exact h
  | cons i is ih => exact ih _ (held_step s i h)

/-- When threads that started with a free mutex are all done, the mutex is
free. -/
theorem free_when_finished (p : Process) (progs : List (List String)) (sched : List Nat)
    (hu : p.sinkUsable) (hfree : p.locked = false)
    (hfin : ((Sys.spawn p progs).run sched).finished) :
    ((Sys.spawn p progs).run sched).proc.locked = false := by
  have hinv : Inv p.env.disk.text progs ((Sys.spawn p progs).run sched) :=
    (Inv.spawn p progs hu).run sched
  cases hl : ((Sys.spawn p progs).run sched).proc.locked with
  | false => rfl
  | true =>
    obtain ⟨j, tj, hj, hcs⟩ := held_run sched (Sys.spawn p progs)
      (fun h => by
        have : (Sys.spawn p progs).proc.locked = false := hfree
        rw [this] at h
        exact absurd h (by simp)) hl
    have hpc := (hinv.local_ j tj hj).2.2.1 (hfin tj (List.getElem?_mem hj))
    simp [Thread.inCS, hpc] at hcs

/-- Facts on the 25 messages of the workers of `main`, by evaluation. -/
theorem workers_facts :
    (workerProgs 5 5).flatten.Nodup ∧
    (∀ m ∈ (workerProgs 5 5).flatten, '\n' ∉ m.data) ∧
    (workerProgs 5 5).flatten.length = 25 ∧
    "All threads are finished!" ∉ (workerProgs 5 5).flatten ∧
    '\n' ∉ "All threads are finished!".data ∧
    (∀ i < 5, ∀ j < 5,
      "Thread " ++ toString i ++ " - Message " ++ toString j ∈ (workerProgs 5 5).flatten) := by
  refine ⟨by decide, by decide, by decide, by decide, by decide, by decide⟩

set_option maxRecDepth 100000 in
/-- C13, refuted as stated: `log.txt` can be opened but its device refuses
writes; the five workers finish, the closing `Log` returns normally, and the
file has gained none of the 26 lines. -/
theorem main_openable_counterexample :
    (mainWorkers ⟨⟨"", goodbit, true⟩, ⟨some "old\n", true, false⟩⟩
      (turnsThenRuns 5 30 35)).finished ∧
    (main ⟨⟨"", goodbit, true⟩, ⟨some "old\n", true, false⟩⟩ (turnsThenRuns 5 30 35)).map
        (fun r => (r.1, r.2.env.disk.text))
      = some (Outcome.returned, "old\n") := by
  refine ⟨by decide, by decide⟩

/-- C13, amended. In `main`, with a `log.txt` that can be opened and whose
device accepts writes, under every schedule of the five workers that lets them
all finish (so that the joins return), the closing `Log` returns and the run
has appended exactly 26 whole
lines to the file: the 25 messages `Thread i - Message j`, `i` and `j` below 5,
each exactly once and in some order, all of them in the file before the
closing `Log` starts, and then `All threads are finished!` as the last line. -/
theorem main_appends_26_lines (e : Env) (sched : List Nat)
    (hop : e.disk.openable = true) (hw : e.disk.writable = true)
    (hjoin : (mainWorkers e sched).finished) :
    ∃ (q : Process) (W : List String),
      main e sched = some (Outcome.returned, q) ∧
      (mainWorkers e sched).proc.env.disk.text = e.disk.text ++ linesOf W ∧
      q.env.disk.text = e.disk.text ++ linesOf (W ++ ["All threads are finished!"]) ∧
      fileLines (linesOf (W ++ ["All threads are finished!"]))
        = W ++ ["All threads are finished!"] ∧
      (W ++ ["All threads are finished!"]).length = 26 ∧
      W.Perm (workerProgs 5 5).flatten ∧
      (∀ i < 5, ∀ j < 5,
        (W ++ ["All threads are finished!"]).count
          ("Thread " ++ toString i ++ " - Message " ++ toString j) = 1) ∧
      (W ++ ["All threads are finished!"]).count "All threads are finished!" = 1 := by
  obtain ⟨hnodup, hnl, hlen, hfinal, hfinalnl, hmem⟩ := workers_facts
  have hu : (Process.start { e with cout := (Person.mk "Dustin" 40).Introduce e.cout }).sinkUsable :=
    ⟨hw, fun _ => hop, fun l hl => by simp [Process.start] at hl⟩
  have hinv : Inv e.disk.text (workerProgs 5 5) (mainWorkers e sched) :=
    (Inv.spawn _ (workerProgs 5 5) hu).run sched
  have hfree : (mainWorkers e sched).proc.locked = false :=
    free_when_finished _ (workerProgs 5 5) sched hu rfl hjoin
  obtain ⟨L, h1, h2, -⟩ := hinv.finished hjoin
  obtain ⟨q, hq, -, -, ht, -⟩ :=
    Log_usable (mainWorkers e sched).proc "All threads are finished!" hinv.usable hfree
  have hWfinal : ¬ "All threads are finished!" ∈ L.map Prod.snd :=
    fun hm => hfinal (h2.subset hm)
  refine ⟨q, L.map Prod.snd, ?_, h1, ?_, ?_, ?_, h2, ?_, ?_⟩
  · simp [main, hjoin, hq]
  · rw [ht, h1]
    simp [linesOf_append, linesOf, String.append_assoc]
  · apply fileLines_linesOf
    intro m hm
    rcases List.mem_append.1 hm with hm | hm
    · exact hnl m (h2.subset hm)
    · rw [List.mem_singleton.1 hm]
      exact hfinalnl
  · rw [List.length_append, h2.length_eq, hlen]
    rfl
  · intro i hi j hj
    have hm := hmem i hi j hj
    have hne : ¬ "All threads are finished!" = "Thread " ++ toString i ++ " - Message " ++ toString j :=
      fun e => hfinal (e ▸ hm)
    rw [List.count_append, h2.count_eq, List.count_eq_one_of_mem hnodup hm,
      List.count_eq_zero_of_not_mem (fun h => hne (List.mem_singleton.1 h).symm)]
  · rw [List.count_append, List.count_eq_zero_of_not_mem hWfinal]
    simp

set_option maxRecDepth 100000 in
/-- C13 amended, for a file that holds one earlier line; the workers take turns for
thirty rounds and then run to their end one after the other. -/
theorem main_appends_26_lines_witness :
    (mainWorkers ⟨⟨"", goodbit, true⟩, ⟨some "old\n", true, true⟩⟩
      (turnsThenRuns 5 30 35)).finished ∧
    ∃ (q : Process) (W : List String),
      main ⟨⟨"", goodbit, true⟩, ⟨some "old\n", true, true⟩⟩ (turnsThenRuns 5 30 35)
        = some (Outcome.returned, q) ∧
      (mainWorkers ⟨⟨"", goodbit, true⟩, ⟨some "old\n", true, true⟩⟩
        (turnsThenRuns 5 30 35)).proc.env.disk.text = "old\n" ++ linesOf W ∧
      q.env.disk.text = "old\n" ++ linesOf (W ++ ["All threads are finished!"]) ∧
      fileLines (linesOf (W ++ ["All threads are finished!"]))
        = W ++ ["All threads are finished!"] ∧
      (W ++ ["All threads are finished!"]).length = 26 ∧
      W.Perm (workerProgs 5 5).flatten ∧
      (∀ i < 5, ∀ j < 5,
        (W ++ ["All threads are finished!"]).count
          ("Thread " ++ toString i ++ " - Message " ++ toString j) = 1) ∧
      (W ++ ["All threads are finished!"]).count "All threads are finished!" = 1 :=
  ⟨by decide,
   main_appends_26_lines ⟨⟨"", goodbit, true⟩, ⟨some "old\n", true, true⟩⟩ (turnsThenRuns 5 30 35)
     rfl rfl (by decide)⟩

end pimplTests
